import Mathlib

/-!
Verification development for the rust-projects repository's entropy-coder core:
the packed bit container (bit_vector), the array-backed max-heap priority
queue (priority_queue), and the Huffman codec (huffman).

Machine integers (usize, 64-bit) are modelled as Nat with explicit masking
where the source relies on wrapping or truncating casts.  Fallible source
operations (panics, HashMap indexing, expect) are modelled with Option and
Except.  Loops are modelled with explicit fuel arguments chosen large enough
for the source's termination argument, so that every definition stays
executable by kernel reduction.
-/

namespace BV

/-- WORD_BITS: size_of::<usize>() * 8 on a 64-bit platform. -/
def wordBits : Nat := 64

/-- BitVector: a logical bit length plus backing words (each a usize). -/
structure BitVector where
  len : Nat
  words : List Nat
deriving DecidableEq

/-- BitVector::new. -/
def new : BitVector := { len := 0, words := [] }

/-- BitVector::to_word_index: bit_index >> LOG_WORD_BITS. -/
def toWordIndex (bitIndex : Nat) : Nat := bitIndex / 64

/-- BitVector::to_word_offset: bit_index & (WORD_BITS - 1). -/
def toWordOffset (bitIndex : Nat) : Nat := bitIndex % 64

/-- BitVector::to_words_ceil: to_word_index(bits) + (to_word_offset(bits) > 0). -/
def toWordsCeil (bits : Nat) : Nat :=
  toWordIndex bits + (if 0 < toWordOffset bits then 1 else 0)

/-- BitVector::fill_word: -(value as isize) as usize, i.e. all-ones or zero. -/
def fillWord (value : Bool) : Nat := if value then 2 ^ 64 - 1 else 0

/-- BitVector::set_unchecked: clear then set the addressed bit of its word.
The Rust expression `word & !set_bit | fill_word(value) & set_bit` is
rendered with the 64-bit complement of set_bit written explicitly. -/
def setUnchecked (bv : BitVector) (index : Nat) (value : Bool) : BitVector :=
  let wi := toWordIndex index
  let setBit := 1 <<< toWordOffset index
  let w := bv.words.getD wi 0
  { bv with words := bv.words.set wi (w &&& ((2 ^ 64 - 1) ^^^ setBit) ||| fillWord value &&& setBit) }

/-- BitVector::get_unchecked: `word >> offset & 1 > 0`. -/
def getUnchecked (bv : BitVector) (index : Nat) : Bool :=
  (bv.words.getD (toWordIndex index) 0 >>> toWordOffset index) &&& 1 != 0

/-- BitVector::get (bounds-checked). -/
def get (bv : BitVector) (index : Nat) : Option Bool :=
  if bv.len ≤ index then none else some (getUnchecked bv index)

/-- BitVector::push: append a fresh one-bit word, or set the bit in place. -/
def push (bv : BitVector) (value : Bool) : BitVector :=
  let wi := toWordIndex bv.len
  let bv' := if wi = bv.words.length
    then { bv with words := bv.words ++ [if value then 1 else 0] }
    else setUnchecked bv bv.len value
  { bv' with len := bv.len + 1 }

/-- Building a BitVector by pushing a list of bits in order (FromIterator /
Extend reduce to repeated push; capacity reservation is allocation-only and
not modelled). -/
def ofList (l : List Bool) : BitVector := l.foldl push new

/-- Bytes: the state of the byte-stream iterator.  The null raw pointer of
the source is modelled by an Option word index into the backing words. -/
structure Bytes where
  bit_index : Nat
  bit_len : Nat
  words : List Nat
  current_word : Option Nat
deriving DecidableEq

/-- BitVector::bytes. -/
def bytes (bv : BitVector) : Bytes :=
  { bit_index := 0, bit_len := bv.len, words := bv.words,
    current_word := if bv.len = 0 then none else some 0 }

/-- Bytes::next: read 8 bits of the current word, advancing the word pointer
at each word boundary; on the final byte, shift out the bits beyond bit_len
(u8 shifts truncate mod 256) and null the pointer. -/
def Bytes.next (s : Bytes) : Option (Nat × Bytes) :=
  match s.current_word with
  | none => none
  | some cw =>
    let off := toWordOffset s.bit_index
    let cw' := if 0 < s.bit_index ∧ off = 0 then cw + 1 else cw
    let byte := (s.words.getD cw' 0 >>> off) % 256
    let bi := s.bit_index + 8
    let unset : Int := (bi : Int) - (s.bit_len : Int)
    if 0 ≤ unset then
      some ((byte <<< unset.toNat % 256) >>> unset.toNat,
            { s with bit_index := bi, current_word := none })
    else
      some (byte, { s with bit_index := bi, current_word := some cw' })

/-- Collect at most fuel bytes from the iterator. -/
def Bytes.take : Nat → Bytes → List Nat
  | 0, _ => []
  | fuel + 1, s =>
    match s.next with
    | none => []
    | some (b, s') => b :: Bytes.take fuel s'

/-- All bytes of a bit vector.  The iterator emits exactly
toWordsCeil-style ceil(len/8) bytes, which is at most len, so len is
sufficient fuel to exhaust it. -/
def byteList (bv : BitVector) : List Nat := Bytes.take bv.len (bytes bv)

/-- Value of a bit sequence read least-significant-bit-first. -/
def bitsVal : List Bool → Nat
  | [] => 0
  | b :: bs => (if b then 1 else 0) + 2 * bitsVal bs

/-- Specification of the byte packing: split the bit sequence into groups of
8 consecutive bits and pack each group into one byte LSB-first; a final
shorter group occupies the low-order positions with high bits zero. -/
def bytesSpec : List Bool → List Nat
  | [] => []
  | b :: rest => bitsVal (List.take 8 (b :: rest)) :: bytesSpec (List.drop 8 (b :: rest))
termination_by l => l.length
decreasing_by simp [List.drop]; omega

/-- Well-formedness of a BitVector relative to its logical bit sequence:
the length matches, the backing store has exactly to_words_ceil(len) words,
every word fits in a usize, and each in-range bit agrees with the sequence.
Bits beyond the logical length are unconstrained (don't-care garbage). -/
def WFbits (bv : BitVector) (l : List Bool) : Prop :=
  bv.len = l.length ∧
  bv.words.length = toWordsCeil bv.len ∧
  (∀ w ∈ bv.words, w < 2 ^ 64) ∧
  (∀ i < l.length, getUnchecked bv i = l.getD i false)

instance (bv : BitVector) (l : List Bool) : Decidable (WFbits bv l) := by
  unfold WFbits; infer_instance

end BV

namespace Huffman

/-- EncodingTree from huffman.rs. -/
inductive EncodingTree (T : Type) where
  | Leaf (c : T)
  | Inner (left right : EncodingTree T)
deriving DecidableEq

/-- UnrootedEncodingTree: a pending tree paired with its frequency (F = Nat). -/
abbrev UET (T : Type) := EncodingTree T × Nat

/-- Ord for UnrootedEncodingTree: `other.frequency.cmp(&self.frequency)`,
the inverted frequency comparison that turns the max-heap into a min-heap. -/
def uetCmp (a b : UET T) : Ordering := compare b.2 a.2

/-- Modelled behavior of std::collections::BinaryHeap::pop on the pending
list: remove and return a greatest element with respect to uetCmp, that is,
one of minimum frequency.  BinaryHeap leaves the order among equal elements
unspecified; this model removes the leftmost minimal-frequency element. -/
def popMin {T : Type} : List (UET T) → Option (UET T × List (UET T))
  | [] => none
  | x :: xs =>
    match popMin xs with
    | none => some (x, [])
    | some (m, rest) =>
      if uetCmp x m = Ordering.lt then some (m, x :: rest) else some (x, xs)

/-- HuffmanEncoding: the codeword table (HashMap modelled as an association
list with distinct keys) and the optional decode tree. -/
structure HuffmanEncoding (T : Type) where
  encodings : List (T × List Bool)
  decode_tree : Option (EncodingTree T)

/-- HuffmanEncoding::empty. -/
def empty (T : Type) : HuffmanEncoding T := { encodings := [], decode_tree := none }

/-- add_bit: copy the prefix and push one bit. -/
def add_bit (bits : List Bool) (bit : Bool) : List Bool := bits ++ [bit]

/-- HuffmanEncoding::add_tree: record each leaf's accumulated path, left
first, appending false on a left descent and true on a right descent.
HashMap::insert is modelled as appending the new key; the source asserts the
key was absent, which holds because the tree's leaves are distinct. -/
def add_tree {T : Type} (enc : List (T × List Bool)) (pre : List Bool) :
    EncodingTree T → List (T × List Bool)
  | .Leaf c => enc ++ [(c, pre)]
  | .Inner left right =>
    add_tree (add_tree enc (add_bit pre false) left) (add_bit pre true) right

/-- The merge loop of `From<HashMap<T, F>>`: pop the lowest-frequency entry;
if the heap is now empty it is the root, otherwise pop a second entry, push
the combined Inner node with the summed frequency, and continue.  Popping an
empty heap (unwrap of None, unreachable from a nonempty table) and fuel
exhaustion (unreachable with fuel at least the heap size) give none.
BinaryHeap::push is modelled by appending, the heap being a multiset. -/
def buildLoop {T : Type} : Nat → List (UET T) → Option (EncodingTree T)
  | 0, _ => none
  | fuel + 1, heap =>
    match popMin heap with
    | none => none
    | some (left, rest) =>
      match popMin rest with
      | none => some left.1
      | some (right, rest2) =>
        buildLoop fuel (rest2 ++ [(.Inner left.1 right.1, left.2 + right.2)])

/-- From<HashMap<T, F>> for HuffmanEncoding: the frequency table is modelled
as an association list with distinct keys (HashMap iteration order is an
arbitrary permutation, which the list order represents).  An empty table
yields the empty encoding; otherwise one leaf per symbol is pushed and the
merge loop runs to a single root. -/
def fromFrequencies {T : Type} (freqs : List (T × Nat)) : HuffmanEncoding T :=
  if freqs.isEmpty then empty T
  else
    let heap := freqs.map fun cf => ((EncodingTree.Leaf cf.1 : EncodingTree T), cf.2)
    match buildLoop heap.length heap with
    | none => empty T
    | some root => { encodings := add_tree [] [] root, decode_tree := some root }

/-- HashMap lookup `self.encodings[&c]` on the association list. -/
def lookupEnc {T : Type} [DecidableEq T] : List (T × List Bool) → T → Option (List Bool)
  | [], _ => none
  | (k, w) :: rest, c => if c = k then some w else lookupEnc rest c

/-- HuffmanEncoding::encode: append each symbol's codeword to the
accumulator; indexing a missing key panics in the source, modelled as none. -/
def encodeGo {T : Type} [DecidableEq T] (e : HuffmanEncoding T) (bits : List Bool) :
    List T → Option (List Bool)
  | [] => some bits
  | c :: cs =>
    match lookupEnc e.encodings c with
    | none => none
    | some w => encodeGo e (bits ++ w) cs

/-- HuffmanEncoding::encode starting from an empty BitVector. -/
def encode {T : Type} [DecidableEq T] (e : HuffmanEncoding T) (values : List T) :
    Option (List Bool) :=
  encodeGo e [] values

/-- Failures of decode: the two expect panics of the source. -/
inductive DecodeError where
  | noTree
  | notLongEnough
deriving DecidableEq

/-- One codeword walk of decode's inner loop: descend right on a true bit
and left on a false bit until a leaf; none when the bits run out first. -/
def decodeTree {T : Type} : EncodingTree T → List Bool → Option (T × List Bool)
  | .Leaf c, bits => some (c, bits)
  | .Inner _ _, [] => none
  | .Inner left right, b :: bits =>
    if b then decodeTree right bits else decodeTree left bits

/-- decode's (0..count).map loop: one tree walk per expected symbol, the
remaining bits threaded through (the shared iterator cursor). -/
def decodeLoop {T : Type} (t : EncodingTree T) : List Bool → Nat → Except DecodeError (List T)
  | _, 0 => .ok []
  | bits, n + 1 =>
    match decodeTree t bits with
    | none => .error .notLongEnough
    | some (c, rest) =>
      match decodeLoop t rest n with
      | .ok cs => .ok (c :: cs)
      | .error err => .error err

/-- HuffmanEncoding::decode: zero expected symbols short-circuits before the
tree is consulted; a missing tree is the "No huffman tree generated" panic. -/
def decode {T : Type} (e : HuffmanEncoding T) (bits : List Bool) (count : Nat) :
    Except DecodeError (List T) :=
  if count = 0 then .ok []
  else
    match e.decode_tree with
    | none => .error .noTree
    | some t => decodeLoop t bits count

/-- Symbols at the leaves of a tree, left to right (analysis helper). -/
def leaves {T : Type} : EncodingTree T → List T
  | .Leaf c => [c]
  | .Inner left right => leaves left ++ leaves right

/-- Root-to-leaf paths of a tree: the codeword of each leaf symbol
(analysis helper; add_tree with an empty accumulator computes exactly this). -/
def codes {T : Type} : EncodingTree T → List (T × List Bool)
  | .Leaf c => [(c, [])]
  | .Inner left right =>
    (codes left).map (fun cw => (cw.1, false :: cw.2)) ++
    (codes right).map (fun cw => (cw.1, true :: cw.2))

end Huffman

namespace MaxHeap

/-- get_left_child: (index << 1) + 1. -/
def getLeftChild (index : Nat) : Nat := 2 * index + 1

/-- get_right_sibling: index + 1. -/
def getRightSibling (index : Nat) : Nat := index + 1

/-- get_parent: (index - 1) >> 1 (Nat subtraction; only used at index > 0). -/
def getParent (index : Nat) : Nat := (index - 1) / 2

/-- Vec::swap as used by MaxHeap::swap_to.  The heap's backing Vec<T> is
modelled as a List Int (the element type needs only a total order). -/
def swapL (l : List Int) (i j : Nat) : List Int :=
  (l.set i (l.getD j 0)).set j (l.getD i 0)

/-- The sift-down loop of Iterator::next: compare with the larger child
(right wins only when strictly greater) and swap downward until the heap
order is restored or a leaf is reached.  The index strictly increases, so
l.length is sufficient fuel. -/
def siftDown : Nat → List Int → Nat → List Int
  | 0, l, _ => l
  | fuel + 1, l, i =>
    let li := getLeftChild i
    if li < l.length then
      let ri := getRightSibling li
      let p := if ri < l.length ∧ l.getD li 0 < l.getD ri 0
        then (ri, l.getD ri 0) else (li, l.getD li 0)
      if p.2 ≤ l.getD i 0 then l
      else siftDown fuel (swapL l i p.1) p.1
    else l

/-- Iterator::next for MaxHeap: swap_remove(0) takes the root and moves the
last element to the front, then sift down from the root. -/
def next (l : List Int) : Option (Int × List Int) :=
  match l with
  | [] => none
  | x :: _ =>
    let arr := (l.dropLast).set 0 (l.getD (l.length - 1) 0)
    some (x, siftDown arr.length arr 0)

/-- The sift-up loop of MaxHeap::push: compare with the parent and swap
upward until the parent is at least the new element or the root is reached.
The index strictly decreases from its starting value, so that value is
sufficient fuel. -/
def siftUp : Nat → List Int → Nat → List Int
  | 0, l, _ => l
  | fuel + 1, l, i =>
    if i = 0 then l
    else
      let pi := getParent i
      if l.getD i 0 ≤ l.getD pi 0 then l
      else siftUp fuel (swapL l pi i) pi

/-- MaxHeap::push: append the value, then sift up from its index. -/
def push (l : List Int) (value : Int) : List Int :=
  siftUp l.length (l ++ [value]) l.length

/-- Heap-order property: every entry is at least both of its children, at
array indices 2i+1 and 2i+2. -/
def IsHeap (l : List Int) : Prop :=
  ∀ i < l.length,
    (2 * i + 1 < l.length → l.getD (2 * i + 1) 0 ≤ l.getD i 0) ∧
    (2 * i + 2 < l.length → l.getD (2 * i + 2) 0 ≤ l.getD i 0)

instance (l : List Int) : Decidable (IsHeap l) := by
  unfold IsHeap; infer_instance

/-- Heap order stated through parents: every non-root entry is at most its
parent (equivalent to IsHeap; the working form of the proofs). -/
def HeapP (l : List Int) : Prop :=
  ∀ c, c < l.length → 1 ≤ c → l.getD c 0 ≤ l.getD ((c - 1) / 2) 0

/-- Invariant of the sift-up loop: heap order holds everywhere except
possibly at the edge from index i to its parent, and the children of i are
bounded by the parent of i (so a swap at i cannot break their order). -/
def UpInv (l : List Int) (i : Nat) : Prop :=
  (∀ c, c < l.length → 1 ≤ c → c ≠ i → l.getD c 0 ≤ l.getD ((c - 1) / 2) 0) ∧
  (∀ c, c < l.length → (c - 1) / 2 = i → 1 ≤ i → l.getD c 0 ≤ l.getD ((i - 1) / 2) 0)

/-- Invariant of the sift-down loop: heap order holds everywhere except
possibly at the edges from index i to its children, and the children of i
are bounded by the parent of i. -/
def DownInv (l : List Int) (i : Nat) : Prop :=
  (∀ c, c < l.length → 1 ≤ c → (c - 1) / 2 ≠ i → l.getD c 0 ≤ l.getD ((c - 1) / 2) 0) ∧
  (∀ c, c < l.length → (c - 1) / 2 = i → 1 ≤ c → 1 ≤ i → l.getD c 0 ≤ l.getD ((i - 1) / 2) 0)

/-- One operation of an interleaving applied to (heap state, popped log). -/
inductive HeapOp where
  | pushOp (v : Int)
  | popOp
deriving DecidableEq

/-- Apply one operation: push mutates the heap; pop appends the returned
value (when any) to the log of popped values. -/
def applyOp : (List Int × List Int) → HeapOp → (List Int × List Int)
  | (s, p), .pushOp v => (push s v, p)
  | (s, p), .popOp =>
    match next s with
    | none => (s, p)
    | some (v, s') => (s', p ++ [v])

/-- Run an interleaving of operations from the empty heap, returning the
final heap state and the popped values in pop order. -/
def runOps (ops : List HeapOp) : List Int × List Int := ops.foldl applyOp ([], [])

/-- Values returned by k consecutive pops from a state, in pop order. -/
def popRun (s : List Int) : Nat → List Int
  | 0 => []
  | k + 1 =>
    match next s with
    | none => []
    | some (v, s') => v :: popRun s' k

end MaxHeap

namespace MaxHeap

theorem getD_set (l : List Int) (i j : Nat) (a : Int) :
    (l.set i a).getD j 0 = if i = j ∧ i < l.length then a else l.getD j 0 := by
  simp only [List.getD_eq_getElem?_getD, List.getElem?_set]
  by_cases h1 : i = j
  · subst h1
    by_cases h2 : i < l.length
    · simp [h2]
    · simp [h2, List.getElem?_eq_none (by omega : l.length ≤ i)]
  · simp [h1]

theorem length_swapL (l : List Int) (i j : Nat) : (swapL l i j).length = l.length := by
  simp [swapL]

theorem getD_swapL (l : List Int) (i j k : Nat) (hi : i < l.length) (hj : j < l.length) :
    (swapL l i j).getD k 0 =
      if j = k then l.getD i 0 else if i = k then l.getD j 0 else l.getD k 0 := by
  unfold swapL
  rw [getD_set]
  simp only [List.length_set]
  rw [getD_set]
  by_cases h1 : j = k
  · rw [if_pos ⟨h1, hj⟩, if_pos h1]
  · rw [if_neg (fun hh => h1 hh.1), if_neg h1]
    by_cases h2 : i = k
    · rw [if_pos ⟨h2, hi⟩, if_pos h2]
    · rw [if_neg (fun hh => h2 hh.1), if_neg h2]

theorem mem_swapL {l : List Int} {i j : Nat} {x : Int}
    (hi : i < l.length) (hj : j < l.length) (hx : x ∈ swapL l i j) : x ∈ l := by
  unfold swapL at hx
  rcases List.mem_or_eq_of_mem_set hx with hx' | hx'
  · rcases List.mem_or_eq_of_mem_set hx' with h | h
    · exact h
    · rw [h, List.getD_eq_getElem l 0 hj]
      exact List.getElem_mem hj
  · rw [hx', List.getD_eq_getElem l 0 hi]
    exact List.getElem_mem hi

theorem isHeap_iff_heapP (l : List Int) : IsHeap l ↔ HeapP l := by
  constructor
  · intro h c hc h1
    have hp : (c - 1) / 2 < l.length := by omega
    have hcases : c = 2 * ((c - 1) / 2) + 1 ∨ c = 2 * ((c - 1) / 2) + 2 := by omega
    rcases hcases with hc' | hc'
    · have := (h ((c - 1) / 2) hp).1 (by omega)
      rwa [← hc'] at this
    · have := (h ((c - 1) / 2) hp).2 (by omega)
      rwa [← hc'] at this
  · intro h i _
    constructor
    · intro hlt
      have := h (2 * i + 1) hlt (by omega)
      have heq : (2 * i + 1 - 1) / 2 = i := by omega
      rwa [heq] at this
    · intro hlt
      have := h (2 * i + 2) hlt (by omega)
      have heq : (2 * i + 2 - 1) / 2 = i := by omega
      rwa [heq] at this

theorem heapP_siftUp : ∀ (fuel : Nat) (l : List Int) (i : Nat),
    i ≤ fuel → i < l.length → UpInv l i → HeapP (siftUp fuel l i) := by
  intro fuel
  induction fuel with
  | zero =>
    intro l i hle _ hinv
    have hi0 : i = 0 := by omega
    subst hi0
    simp only [siftUp]
    intro c hc h1
    exact hinv.1 c hc h1 (by omega)
  | succ fuel ih =>
    intro l i hle hilen hinv
    simp only [siftUp]
    by_cases hi0 : i = 0
    · rw [if_pos hi0]
      intro c hc h1
      exact hinv.1 c hc h1 (by omega)
    · rw [if_neg hi0]
      set pi := getParent i with hpi
      have hpival : pi = (i - 1) / 2 := rfl
      have hpilt : pi < i := by omega
      by_cases hbreak : l.getD i 0 ≤ l.getD pi 0
      · rw [if_pos hbreak]
        intro c hc h1
        by_cases hci : c = i
        · rw [hci, ← hpival]
          exact hbreak
        · exact hinv.1 c hc h1 hci
      · rw [if_neg hbreak]
        have hswap : l.getD pi 0 < l.getD i 0 := by omega
        have hpilen : pi < l.length := by omega
        apply ih (swapL l pi i) pi (by omega) (by rw [length_swapL]; omega)
        have hget : ∀ k, (swapL l pi i).getD k 0 =
            if i = k then l.getD pi 0 else if pi = k then l.getD i 0 else l.getD k 0 :=
          fun k => getD_swapL l pi i k hpilen hilen
        constructor
        · intro c hc h1 hcpi
          rw [length_swapL] at hc
          rw [hget c, hget ((c - 1) / 2)]
          by_cases hci : c = i
          · rw [if_pos (show i = c by omega), if_neg (show ¬ i = (c - 1) / 2 by omega),
              if_pos (show pi = (c - 1) / 2 by omega)]
            omega
          · rw [if_neg (show ¬ i = c by omega), if_neg (show ¬ pi = c by omega)]
            by_cases hcp : (c - 1) / 2 = i
            · rw [if_pos hcp.symm]
              have := hinv.2 c hc hcp (by omega)
              rw [← hpival] at this
              exact this
            · rw [if_neg (show ¬ i = (c - 1) / 2 by omega)]
              by_cases hcp2 : (c - 1) / 2 = pi
              · rw [if_pos hcp2.symm]
                have := hinv.1 c hc h1 hci
                rw [hcp2] at this
                omega
              · rw [if_neg (show ¬ pi = (c - 1) / 2 by omega)]
                exact hinv.1 c hc h1 hci
        · intro c hc hcp h1pi
          rw [length_swapL] at hc
          have hc1 : 1 ≤ c := by omega
          have hcbig : pi < c := by omega
          rw [hget c, hget ((pi - 1) / 2)]
          rw [if_neg (show ¬ i = (pi - 1) / 2 by omega),
            if_neg (show ¬ pi = (pi - 1) / 2 by omega)]
          by_cases hci : c = i
          · rw [if_pos (show i = c by omega)]
            exact hinv.1 pi hpilen (by omega) (by omega)
          · rw [if_neg (show ¬ i = c by omega), if_neg (show ¬ pi = c by omega)]
            have h1 := hinv.1 c hc hc1 hci
            rw [hcp] at h1
            have h2 := hinv.1 pi hpilen (by omega) (by omega)
            omega

theorem push_heapP (l : List Int) (v : Int) (h : HeapP l) : HeapP (push l v) := by
  unfold push
  apply heapP_siftUp l.length (l ++ [v]) l.length (le_refl _) (by simp)
  constructor
  · intro c hc h1 hci
    have hc' : c < l.length + 1 := by simpa using hc
    have hclt : c < l.length := by omega
    have hplt : (c - 1) / 2 < l.length := by omega
    rw [List.getD_append _ _ _ _ hclt, List.getD_append _ _ _ _ hplt]
    exact h c hclt h1
  · intro c hc hcp h1
    have hc' : c < l.length + 1 := by simpa using hc
    omega

theorem downInv_swap (l : List Int) (i ci : Nat)
    (hchild : ci = 2 * i + 1 ∨ ci = 2 * i + 2) (hcilen : ci < l.length)
    (hinv : DownInv l i)
    (hl : l.getD (2 * i + 1) 0 ≤ l.getD ci 0)
    (hr : 2 * i + 2 < l.length → l.getD (2 * i + 2) 0 ≤ l.getD ci 0)
    (hswap : l.getD i 0 < l.getD ci 0) : DownInv (swapL l i ci) ci := by
  have hilen : i < l.length := by omega
  have hget : ∀ k, (swapL l i ci).getD k 0 =
      if ci = k then l.getD i 0 else if i = k then l.getD ci 0 else l.getD k 0 :=
    fun k => getD_swapL l i ci k hilen hcilen
  have hcip : (ci - 1) / 2 = i := by omega
  constructor
  · intro c hc h1 hcp
    rw [length_swapL] at hc
    rw [hget c, hget ((c - 1) / 2)]
    by_cases hcc : c = ci
    · rw [if_pos (show ci = c by omega), if_neg (show ¬ ci = (c - 1) / 2 by omega),
        if_pos (show i = (c - 1) / 2 by omega)]
      omega
    · rw [if_neg (show ¬ ci = c by omega)]
      by_cases hceqi : c = i
      · rw [if_pos (show i = c by omega), if_neg (show ¬ ci = (c - 1) / 2 by omega),
          if_neg (show ¬ i = (c - 1) / 2 by omega)]
        have := hinv.2 ci hcilen hcip (by omega) (by omega)
        rw [hceqi]
        exact this
      · rw [if_neg (show ¬ i = c by omega)]
        by_cases hcpi : (c - 1) / 2 = i
        · rw [if_neg (show ¬ ci = (c - 1) / 2 by omega), if_pos hcpi.symm]
          have hcc2 : c = 2 * i + 1 ∨ c = 2 * i + 2 := by omega
          rcases hcc2 with hc' | hc'
          · rw [hc'] at hc ⊢
            exact hl
          · rw [hc'] at hc ⊢
            exact hr hc
        · rw [if_neg (show ¬ ci = (c - 1) / 2 by omega),
            if_neg (show ¬ i = (c - 1) / 2 by omega)]
          exact hinv.1 c hc h1 hcpi
  · intro c hc hcp h1 h1ci
    rw [length_swapL] at hc
    rw [hget c, hget ((ci - 1) / 2), hcip]
    have hcbig : ci < c := by omega
    rw [if_neg (show ¬ ci = c by omega), if_neg (show ¬ i = c by omega),
      if_neg (show ¬ ci = i by omega), if_pos rfl]
    have := hinv.1 c hc (by omega) (by omega)
    rw [hcp] at this
    omega

theorem heapP_siftDown : ∀ (fuel : Nat) (l : List Int) (i : Nat),
    l.length ≤ fuel + i → DownInv l i → HeapP (siftDown fuel l i) := by
  intro fuel
  induction fuel with
  | zero =>
    intro l i hlen hinv
    simp only [siftDown]
    intro c hc h1
    exact hinv.1 c hc h1 (by omega)
  | succ fuel ih =>
    intro l i hlen hinv
    simp only [siftDown]
    have hlival : getLeftChild i = 2 * i + 1 := rfl
    have hrival : getRightSibling (getLeftChild i) = 2 * i + 2 := rfl
    by_cases hli : getLeftChild i < l.length
    · rw [if_pos hli]
      set ci := (if getRightSibling (getLeftChild i) < l.length ∧
          l.getD (getLeftChild i) 0 < l.getD (getRightSibling (getLeftChild i)) 0
        then (getRightSibling (getLeftChild i), l.getD (getRightSibling (getLeftChild i)) 0)
        else (getLeftChild i, l.getD (getLeftChild i) 0)) with hcidef
      have hfacts : (ci.1 = 2 * i + 1 ∨ ci.1 = 2 * i + 2) ∧ ci.1 < l.length ∧
          ci.2 = l.getD ci.1 0 ∧ l.getD (2 * i + 1) 0 ≤ ci.2 ∧
          (2 * i + 2 < l.length → l.getD (2 * i + 2) 0 ≤ ci.2) := by
        rw [hcidef]
        by_cases hcond : getRightSibling (getLeftChild i) < l.length ∧
            l.getD (getLeftChild i) 0 < l.getD (getRightSibling (getLeftChild i)) 0
        · rw [if_pos hcond]
          have h4 := hcond.2
          rw [hlival] at h4
          refine ⟨Or.inr hrival, hcond.1, rfl, le_of_lt h4, fun _ => ?_⟩
          show l.getD (2 * i + 2) 0 ≤ l.getD (getRightSibling (getLeftChild i)) 0
          rw [hrival]
        · rw [if_neg hcond]
          push_neg at hcond
          refine ⟨Or.inl hlival, hli, rfl, le_refl _, fun h2 => ?_⟩
          show l.getD (2 * i + 2) 0 ≤ l.getD (getLeftChild i) 0
          have h2' : getRightSibling (getLeftChild i) < l.length := by rw [hrival]; exact h2
          have h5 := hcond h2'
          rw [← hrival]
          exact h5
      obtain ⟨hc12, hcilen, hcival, hlle, hrle⟩ := hfacts
      by_cases hbreak : ci.2 ≤ l.getD i 0
      · rw [if_pos hbreak]
        intro c hc h1
        by_cases hcp : (c - 1) / 2 = i
        · have hcc : c = 2 * i + 1 ∨ c = 2 * i + 2 := by omega
          rw [hcp]
          rcases hcc with hc' | hc'
          · subst hc'; omega
          · subst hc'
            have := hrle (by omega)
            omega
        · exact hinv.1 c hc h1 hcp
      · rw [if_neg hbreak]
        apply ih _ _ (by rw [length_swapL]; omega)
        apply downInv_swap l i ci.1 hc12 hcilen hinv (by omega) (fun h2 => by
          have := hrle h2; omega) (by omega)
    · rw [if_neg hli]
      intro c hc h1
      exact hinv.1 c hc h1 (by omega)

theorem heapP_nil : HeapP ([] : List Int) := by
  intro c hc h1
  simp only [List.length_nil] at hc
  omega

theorem length_dropLast_set (l : List Int) (z : Int) :
    ((l.dropLast).set 0 z).length = l.length - 1 := by
  simp

theorem getD_dropLast_set (l : List Int) (z : Int) (k : Nat)
    (h1 : 1 ≤ k) (hk : k < l.length - 1) :
    ((l.dropLast).set 0 z).getD k 0 = l.getD k 0 := by
  rw [getD_set, if_neg (by omega)]
  rw [List.getD_eq_getElem?_getD, List.getD_eq_getElem?_getD, List.dropLast_eq_take,
    List.getElem?_take, if_pos hk]

theorem next_heapP {l : List Int} {v : Int} {l' : List Int}
    (h : HeapP l) (hn : next l = some (v, l')) : HeapP l' := by
  match l, hn with
  | x :: xs, hn =>
    simp only [next, Option.some.injEq, Prod.mk.injEq] at hn
    obtain ⟨_, hl'⟩ := hn
    rw [← hl']
    apply heapP_siftDown _ _ 0 (by omega)
    constructor
    · intro c hc h1 hcp
      rw [length_dropLast_set] at hc
      have hc3 : 3 ≤ c := by omega
      rw [getD_dropLast_set _ _ _ (by omega) (by omega),
        getD_dropLast_set _ _ _ (by omega) (by omega)]
      exact h c (by omega) (by omega)
    · intro c hc hcp h1 h0
      omega

theorem root_max {l : List Int} (h : HeapP l) :
    ∀ k, k < l.length → l.getD k 0 ≤ l.getD 0 0 := by
  intro k
  induction k using Nat.strong_induction_on with
  | _ k ih =>
    intro hk
    rcases Nat.eq_zero_or_pos k with hk0 | hk1
    · subst hk0; exact le_refl _
    · have h1 := h k hk hk1
      have h2 := ih ((k - 1) / 2) (by omega) (by omega)
      omega

theorem mem_le_root {l : List Int} {x : Int} (h : HeapP l) (hx : x ∈ l) :
    x ≤ l.getD 0 0 := by
  obtain ⟨n, hn, hget⟩ := List.mem_iff_getElem.1 hx
  have := root_max h n hn
  rwa [List.getD_eq_getElem l 0 hn, hget] at this

theorem mem_siftDown : ∀ (fuel : Nat) (l : List Int) (i : Nat) (x : Int),
    x ∈ siftDown fuel l i → x ∈ l := by
  intro fuel
  induction fuel with
  | zero => intro l i x hx; exact hx
  | succ fuel ih =>
    intro l i x hx
    simp only [siftDown] at hx
    by_cases hli : getLeftChild i < l.length
    · rw [if_pos hli] at hx
      have hilen : i < l.length := by
        have hlival : getLeftChild i = 2 * i + 1 := rfl
        omega
      split at hx
      · rename_i hcond
        split at hx
        · exact hx
        · exact mem_swapL hilen hcond.1 (ih _ _ _ hx)
      · rename_i hcond
        split at hx
        · exact hx
        · exact mem_swapL hilen hli (ih _ _ _ hx)
    · rwa [if_neg hli] at hx

theorem next_subset {l : List Int} {v : Int} {l' : List Int} {x : Int}
    (hn : next l = some (v, l')) (hx : x ∈ l') : x ∈ l := by
  match l, hn with
  | y :: ys, hn =>
    simp only [next, Option.some.injEq, Prod.mk.injEq] at hn
    obtain ⟨_, hl'⟩ := hn
    rw [← hl'] at hx
    have hx' := mem_siftDown _ _ _ _ hx
    rcases List.mem_or_eq_of_mem_set hx' with h | h
    · rw [List.dropLast_eq_take] at h
      exact List.take_subset _ _ h
    · rw [h, List.getD_eq_getElem _ 0 (by simp)]
      exact List.getElem_mem _

theorem next_root {l : List Int} {v : Int} {l' : List Int}
    (hn : next l = some (v, l')) : l ≠ [] ∧ v = l.getD 0 0 := by
  match l, hn with
  | x :: xs, hn =>
    simp only [next, Option.some.injEq, Prod.mk.injEq] at hn
    exact ⟨by simp, hn.1.symm⟩

theorem popRun_head {s : List Int} {k : Nat} {w : Int}
    (h : (popRun s k).head? = some w) : w ∈ s := by
  match k with
  | 0 => simp [popRun] at h
  | k + 1 =>
    simp only [popRun] at h
    cases hn : next s with
    | none => rw [hn] at h; simp at h
    | some p =>
      rw [hn] at h
      simp only [List.head?_cons, Option.some.injEq] at h
      obtain ⟨hne, hv⟩ := next_root hn
      rw [← h, hv]
      cases s with
      | nil => exact absurd rfl hne
      | cons x xs => exact List.mem_cons_self _ _

theorem chain_popRun : ∀ (k : Nat) (s : List Int), HeapP s →
    List.Chain' (· ≥ ·) (popRun s k) := by
  intro k
  induction k with
  | zero => intro s _; exact List.chain'_nil
  | succ k ih =>
    intro s hs
    simp only [popRun]
    cases hn : next s with
    | none => exact List.chain'_nil
    | some p =>
      obtain ⟨v, s'⟩ := p
      have hs' := next_heapP hs hn
      rw [List.chain'_cons']
      refine ⟨?_, ih s' hs'⟩
      intro y hy
      have hys' : y ∈ s' := popRun_head hy
      have hys : y ∈ s := next_subset hn hys'
      have hle := mem_le_root hs hys
      have hv := (next_root hn).2
      rw [← hv] at hle
      exact hle

theorem heapP_runOps (ops : List HeapOp) : HeapP (runOps ops).1 := by
  suffices h : ∀ st : List Int × List Int, HeapP st.1 → HeapP (ops.foldl applyOp st).1 by
    exact h ([], []) heapP_nil
  induction ops with
  | nil => intro st h; exact h
  | cons op ops ih =>
    intro st h
    apply ih
    obtain ⟨s, p⟩ := st
    match op with
    | .pushOp v => exact push_heapP s v h
    | .popOp =>
      simp only [applyOp]
      cases hn : next s with
      | none => exact h
      | some q =>
        obtain ⟨w, s'⟩ := q
        exact next_heapP h hn

end MaxHeap

namespace BV

theorem getUnchecked_testBit (bv : BitVector) (i : Nat) :
    getUnchecked bv i = (bv.words.getD (toWordIndex i) 0).testBit (toWordOffset i) := by
  unfold getUnchecked Nat.testBit
  rw [Nat.land_comm]

theorem push_len (bv : BitVector) (v : Bool) : (push bv v).len = bv.len + 1 := by
  unfold push
  split <;> rfl

theorem push_words_append {bv : BitVector} (v : Bool)
    (hcase : toWordIndex bv.len = bv.words.length) :
    (push bv v).words = bv.words ++ [if v then 1 else 0] := by
  simp only [push]
  rw [if_pos hcase]

theorem push_words_set {bv : BitVector} (v : Bool)
    (hcase : toWordIndex bv.len ≠ bv.words.length) :
    (push bv v).words = bv.words.set (toWordIndex bv.len)
      (bv.words.getD (toWordIndex bv.len) 0 &&& ((2 ^ 64 - 1) ^^^ (1 <<< toWordOffset bv.len))
        ||| fillWord v &&& (1 <<< toWordOffset bv.len)) := by
  simp only [push, setUnchecked]
  rw [if_neg hcase]

theorem testBit_setWord (w : Nat) (off j : Nat) (v : Bool) (hoff : off < 64) (hj : j < 64) :
    (w &&& ((2 ^ 64 - 1) ^^^ (1 <<< off)) ||| fillWord v &&& (1 <<< off)).testBit j =
      if j = off then v else w.testBit j := by
  have h1 : (1 : Nat) <<< off = 2 ^ off := by rw [Nat.shiftLeft_eq, one_mul]
  rw [h1, Nat.testBit_lor, Nat.testBit_land, Nat.testBit_xor, Nat.testBit_land,
    Nat.testBit_two_pow_sub_one, Nat.testBit_two_pow]
  by_cases hjo : j = off
  · subst hjo
    rw [if_pos rfl]
    cases v
    · simp [fillWord, hj]
    · have hfb : (fillWord true).testBit j = true := by
        rw [show fillWord true = 2 ^ 64 - 1 from rfl, Nat.testBit_two_pow_sub_one]
        simp [hj]
      simp [hfb, hj]
  · have hoj : off ≠ j := fun h => hjo h.symm
    simp [hoj, hj, hjo]

theorem fillWord_and_lt (w : Nat) (off : Nat) (v : Bool) (hw : w < 2 ^ 64) :
    w &&& ((2 ^ 64 - 1) ^^^ (1 <<< off)) ||| fillWord v &&& (1 <<< off) < 2 ^ 64 := by
  have h64 : 0 < (2 : Nat) ^ 64 := Nat.two_pow_pos 64
  apply Nat.or_lt_two_pow
  · exact Nat.lt_of_le_of_lt Nat.and_le_left hw
  · apply Nat.lt_of_le_of_lt Nat.and_le_left
    cases v <;> simp [fillWord]

theorem getD_lt_of_forall {ws : List Nat} (h : ∀ w ∈ ws, w < 2 ^ 64) (i : Nat) :
    ws.getD i 0 < 2 ^ 64 := by
  by_cases hi : i < ws.length
  · rw [List.getD_eq_getElem ws 0 hi]
    exact h _ (List.getElem_mem hi)
  · rw [List.getD_eq_getElem?_getD, List.getElem?_eq_none (by omega)]
    exact Nat.two_pow_pos 64

theorem getD_setN (l : List Nat) (i j : Nat) (a : Nat) :
    (l.set i a).getD j 0 = if i = j ∧ i < l.length then a else l.getD j 0 := by
  simp only [List.getD_eq_getElem?_getD, List.getElem?_set]
  by_cases h1 : i = j
  · subst h1
    by_cases h2 : i < l.length
    · simp [h2]
    · simp [h2, List.getElem?_eq_none (by omega : l.length ≤ i)]
  · simp [h1]

theorem toWordsCeil_eq (m : Nat) : toWordsCeil m = (m + 63) / 64 := by
  unfold toWordsCeil toWordIndex toWordOffset
  by_cases h0 : 0 < m % 64
  · rw [if_pos h0]
    omega
  · rw [if_neg h0]
    omega

theorem wf_push {bv : BitVector} {l : List Bool} (h : WFbits bv l) (v : Bool) :
    WFbits (push bv v) (l ++ [v]) := by
  obtain ⟨hlen, hwords, hbound, hbits⟩ := h
  have e1 : toWordIndex bv.len = bv.len / 64 := rfl
  have e2 : toWordOffset bv.len = bv.len % 64 := rfl
  rw [toWordsCeil_eq] at hwords
  refine ⟨?_, ?_, ?_, ?_⟩
  · rw [push_len, hlen]
    simp
  · rw [push_len, toWordsCeil_eq]
    by_cases hcase : toWordIndex bv.len = bv.words.length
    · rw [push_words_append v hcase]
      simp only [List.length_append, List.length_cons, List.length_nil]
      omega
    · rw [push_words_set v hcase, List.length_set]
      omega
  · intro w hw
    by_cases hcase : toWordIndex bv.len = bv.words.length
    · rw [push_words_append v hcase] at hw
      rcases List.mem_append.1 hw with h' | h'
      · exact hbound w h'
      · have h64 : 1 < (2 : Nat) ^ 64 := by norm_num
        have hwv : w = if v then 1 else 0 := List.mem_singleton.1 h'
        rw [hwv]
        cases v <;> simp
    · rw [push_words_set v hcase] at hw
      rcases List.mem_or_eq_of_mem_set hw with h' | h'
      · exact hbound w h'
      · rw [h']
        exact fillWord_and_lt _ _ _ (getD_lt_of_forall hbound _)
  · intro i hi
    simp only [List.length_append, List.length_cons, List.length_nil] at hi
    rw [getUnchecked_testBit]
    by_cases hcase : toWordIndex bv.len = bv.words.length
    · have hmod : bv.len % 64 = 0 := by omega
      rw [push_words_append v hcase]
      by_cases hilt : i < l.length
      · have hiw : toWordIndex i < bv.words.length := by
          have e5 : toWordIndex i = i / 64 := rfl
          omega
        rw [List.getD_append _ _ _ _ hiw, List.getD_append _ _ _ _ hilt,
          ← getUnchecked_testBit]
        exact hbits i hilt
      · have hieq : i = l.length := by omega
        have hieq' : i = bv.len := by omega
        have hwi : toWordIndex i = bv.words.length := by rw [hieq', hcase]
        have hoff : toWordOffset i = 0 := by
          have e5 : toWordOffset i = i % 64 := rfl
          omega
        rw [hwi, hoff]
        have hgd : (bv.words ++ [if v then 1 else 0]).getD bv.words.length 0 =
            (if v then 1 else 0) := by
          rw [List.getD_eq_getElem?_getD, List.getElem?_concat_length]
          rfl
        have hrhs : (l ++ [v]).getD l.length false = v := by
          rw [List.getD_eq_getElem?_getD, List.getElem?_concat_length]
          rfl
        rw [hgd, hieq, hrhs]
        cases v <;> rfl
    · have hmod : bv.len % 64 ≠ 0 := by
        intro h0
        apply hcase
        omega
      have hwilt : toWordIndex bv.len < bv.words.length := by omega
      have e5 : toWordOffset i = i % 64 := rfl
      have e6 : toWordIndex i = i / 64 := rfl
      rw [push_words_set v hcase, getD_setN]
      by_cases hwieq : toWordIndex bv.len = toWordIndex i
      · rw [if_pos ⟨hwieq, hwilt⟩]
        rw [testBit_setWord _ _ _ _ (by omega) (by omega)]
        by_cases hieq : i = bv.len
        · rw [if_pos (by rw [hieq])]
          rw [hieq, hlen]
          have hrhs : (l ++ [v]).getD l.length false = v := by
            rw [List.getD_eq_getElem?_getD, List.getElem?_concat_length]
            rfl
          rw [hrhs]
        · rw [if_neg (by omega)]
          have hilt : i < l.length := by omega
          rw [hwieq, ← getUnchecked_testBit, List.getD_append _ _ _ _ hilt]
          exact hbits i hilt
      · rw [if_neg (fun hh => hwieq hh.1)]
        have hieq : i ≠ bv.len := fun hh => hwieq (by rw [hh])
        have hilt : i < l.length := by omega
        rw [← getUnchecked_testBit, List.getD_append _ _ _ _ hilt]
        exact hbits i hilt

theorem wf_new : WFbits new [] := by
  refine ⟨rfl, rfl, ?_, ?_⟩
  · intro w hw
    simp [new] at hw
  · intro i hi
    simp at hi

theorem wf_foldl (l : List Bool) : ∀ (l0 : List Bool) (bv : BitVector),
    WFbits bv l0 → WFbits (l.foldl push bv) (l0 ++ l) := by
  induction l with
  | nil =>
    intro l0 bv h
    simpa using h
  | cons b bs ih =>
    intro l0 bv h
    have h2 := ih (l0 ++ [b]) (push bv b) (wf_push h b)
    simpa [List.append_assoc] using h2

theorem wf_ofList (l : List Bool) : WFbits (ofList l) l := by
  have h := wf_foldl l [] new wf_new
  simpa [ofList] using h

end BV

namespace BV

theorem bitsVal_testBit (bs : List Bool) : ∀ j, (bitsVal bs).testBit j = bs.getD j false := by
  induction bs with
  | nil =>
    intro j
    simp [bitsVal]
  | cons b bs ih =>
    intro j
    match j with
    | 0 =>
      rw [Nat.testBit_zero, List.getD_cons_zero]
      cases b
      · have h1 : bitsVal (false :: bs) = 0 + 2 * bitsVal bs := rfl
        rw [h1, show (0 + 2 * bitsVal bs) % 2 = 0 by omega]
        rfl
      · have h1 : bitsVal (true :: bs) = 1 + 2 * bitsVal bs := rfl
        rw [h1, show (1 + 2 * bitsVal bs) % 2 = 1 by omega]
        rfl
    | j + 1 =>
      rw [Nat.testBit_add_one, List.getD_cons_succ, ← ih j]
      have hdiv : bitsVal (b :: bs) / 2 = bitsVal bs := by
        cases b
        · have h1 : bitsVal (false :: bs) = 0 + 2 * bitsVal bs := rfl
          omega
        · have h1 : bitsVal (true :: bs) = 1 + 2 * bitsVal bs := rfl
          omega
      rw [hdiv]

theorem bitsVal_lt (bs : List Bool) : bitsVal bs < 2 ^ bs.length := by
  induction bs with
  | nil =>
    simp [bitsVal]
  | cons b bs ih =>
    have hp : (2 : Nat) ^ (b :: bs).length = 2 * 2 ^ bs.length := by
      rw [List.length_cons, Nat.pow_succ]
      omega
    cases b
    · have h1 : bitsVal (false :: bs) = 0 + 2 * bitsVal bs := rfl
      omega
    · have h1 : bitsVal (true :: bs) = 1 + 2 * bitsVal bs := rfl
      omega

theorem getD_take_drop (l : List Bool) (k j : Nat) :
    ((l.drop k).take 8).getD j false =
      if j < 8 ∧ k + j < l.length then l.getD (k + j) false else false := by
  rw [List.getD_eq_getElem?_getD, List.getElem?_take]
  by_cases hj : j < 8
  · rw [if_pos hj, List.getElem?_drop]
    by_cases hk : k + j < l.length
    · rw [if_pos ⟨hj, hk⟩, List.getD_eq_getElem?_getD]
    · rw [if_neg (fun h => hk h.2), List.getElem?_eq_none (by omega)]
      rfl
  · rw [if_neg hj, if_neg (fun h => hj h.1)]
    rfl

theorem byte_eq_chunk (wsl : List Nat) (len : Nat) (l : List Bool) (k : Nat)
    (hlen : len = l.length)
    (hbit : ∀ i < len, (wsl.getD (toWordIndex i) 0).testBit (toWordOffset i) = l.getD i false)
    (hfull : 8 * k + 8 ≤ len) :
    (wsl.getD (toWordIndex (8 * k)) 0 >>> toWordOffset (8 * k)) % 256 =
      bitsVal ((l.drop (8 * k)).take 8) := by
  apply Nat.eq_of_testBit_eq
  intro j
  rw [show (256 : Nat) = 2 ^ 8 from rfl, Nat.testBit_mod_two_pow, Nat.testBit_shiftRight,
    bitsVal_testBit, getD_take_drop]
  by_cases hj : j < 8
  · rw [if_pos ⟨hj, by omega⟩]
    have e1 : toWordOffset (8 * k) = 8 * k % 64 := rfl
    have e2 : toWordOffset (8 * k + j) = (8 * k + j) % 64 := rfl
    have e3 : toWordIndex (8 * k) = 8 * k / 64 := rfl
    have e4 : toWordIndex (8 * k + j) = (8 * k + j) / 64 := rfl
    have hoff : toWordOffset (8 * k) + j = toWordOffset (8 * k + j) := by omega
    have hwi : toWordIndex (8 * k) = toWordIndex (8 * k + j) := by omega
    rw [hoff, hwi, hbit (8 * k + j) (by omega)]
    simp [hj]
  · rw [if_neg (fun hh => hj hh.1)]
    simp [hj]

theorem masked_byte_eq_chunk (wsl : List Nat) (len : Nat) (l : List Bool) (k u : Nat)
    (hlen : len = l.length)
    (hbit : ∀ i < len, (wsl.getD (toWordIndex i) 0).testBit (toWordOffset i) = l.getD i false)
    (hk : 8 * k < len) (hu : u = 8 * k + 8 - len) (hlast : len ≤ 8 * k + 8) :
    ((((wsl.getD (toWordIndex (8 * k)) 0 >>> toWordOffset (8 * k)) % 256) <<< u) % 256) >>> u =
      bitsVal ((l.drop (8 * k)).take 8) := by
  apply Nat.eq_of_testBit_eq
  intro j
  rw [Nat.testBit_shiftRight, show (256 : Nat) = 2 ^ 8 from rfl, Nat.testBit_mod_two_pow,
    Nat.testBit_shiftLeft, show u + j - u = j from by omega, Nat.testBit_mod_two_pow,
    Nat.testBit_shiftRight, bitsVal_testBit, getD_take_drop]
  by_cases hin : u + j < 8
  · have hj8 : j < 8 := by omega
    have hklen : 8 * k + j < len := by omega
    rw [if_pos ⟨hj8, by omega⟩]
    have e1 : toWordOffset (8 * k) = 8 * k % 64 := rfl
    have e2 : toWordOffset (8 * k + j) = (8 * k + j) % 64 := rfl
    have e3 : toWordIndex (8 * k) = 8 * k / 64 := rfl
    have e4 : toWordIndex (8 * k + j) = (8 * k + j) / 64 := rfl
    have hoff : toWordOffset (8 * k) + j = toWordOffset (8 * k + j) := by omega
    have hwi : toWordIndex (8 * k) = toWordIndex (8 * k + j) := by omega
    rw [hoff, hwi, hbit (8 * k + j) (by omega)]
    simp [hin, hj8, Nat.le_add_right]
  · rw [if_neg (fun hh => absurd hh.2 (by omega))]
    simp [hin]

theorem take_none (fuel : Nat) (s : Bytes) (h : s.current_word = none) :
    Bytes.take fuel s = [] := by
  cases fuel with
  | zero => rfl
  | succ fuel => simp only [Bytes.take, Bytes.next, h]

theorem bytesSpec_nil : bytesSpec [] = [] := by
  rw [bytesSpec]

theorem bytesSpec_cons (l : List Bool) (h : l ≠ []) :
    bytesSpec l = bitsVal (l.take 8) :: bytesSpec (l.drop 8) := by
  cases l with
  | nil => exact absurd rfl h
  | cons b rest => rw [bytesSpec]

theorem next_step_last (wsl : List Nat) (len k cw : Nat)
    (hcw : (if 0 < 8 * k ∧ toWordOffset (8 * k) = 0 then cw + 1 else cw) = toWordIndex (8 * k))
    (hfin : len ≤ 8 * k + 8) :
    Bytes.next ⟨8 * k, len, wsl, some cw⟩ =
      some (((((wsl.getD (toWordIndex (8 * k)) 0 >>> toWordOffset (8 * k)) % 256)
          <<< (8 * k + 8 - len)) % 256) >>> (8 * k + 8 - len),
        ⟨8 * k + 8, len, wsl, none⟩) := by
  simp only [Bytes.next]
  rw [hcw]
  rw [if_pos (show (0 : Int) ≤ (↑(8 * k + 8) : Int) - ↑len by omega)]
  rw [show ((↑(8 * k + 8) : Int) - ↑len).toNat = 8 * k + 8 - len by omega]

theorem next_step_mid (wsl : List Nat) (len k cw : Nat)
    (hcw : (if 0 < 8 * k ∧ toWordOffset (8 * k) = 0 then cw + 1 else cw) = toWordIndex (8 * k))
    (hfin : ¬ len ≤ 8 * k + 8) :
    Bytes.next ⟨8 * k, len, wsl, some cw⟩ =
      some ((wsl.getD (toWordIndex (8 * k)) 0 >>> toWordOffset (8 * k)) % 256,
        ⟨8 * k + 8, len, wsl, some (toWordIndex (8 * k))⟩) := by
  simp only [Bytes.next]
  rw [hcw]
  rw [if_neg (show ¬ (0 : Int) ≤ (↑(8 * k + 8) : Int) - ↑len by omega)]

theorem take_bytes_eq (wsl : List Nat) (len : Nat) (l : List Bool)
    (hlen : len = l.length)
    (hbit : ∀ i < len, (wsl.getD (toWordIndex i) 0).testBit (toWordOffset i) = l.getD i false) :
    ∀ (fuel k cw : Nat), 8 * k < len → len ≤ 8 * k + 8 * fuel →
      (if 0 < 8 * k ∧ toWordOffset (8 * k) = 0 then cw + 1 else cw) = toWordIndex (8 * k) →
      Bytes.take fuel ⟨8 * k, len, wsl, some cw⟩ = bytesSpec (l.drop (8 * k)) := by
  intro fuel
  induction fuel with
  | zero =>
    intro k cw h1 h2 _
    exact absurd h1 (by omega)
  | succ fuel ih =>
    intro k cw h1 h2 hcw
    have hne : l.drop (8 * k) ≠ [] := by
      intro hd
      have hlen2 := congrArg List.length hd
      rw [List.length_drop] at hlen2
      simp at hlen2
      omega
    by_cases hfin : len ≤ 8 * k + 8
    · have hnext := next_step_last wsl len k cw hcw hfin
      simp only [Bytes.take, hnext]
      rw [take_none fuel _ rfl]
      rw [bytesSpec_cons _ hne, List.drop_drop,
        show List.drop (8 * k + 8) l = ([] : List Bool) from List.drop_eq_nil_of_le (by omega),
        bytesSpec_nil]
      rw [masked_byte_eq_chunk wsl len l k (8 * k + 8 - len) hlen hbit h1 rfl hfin]
    · have hnext := next_step_mid wsl len k cw hcw hfin
      simp only [Bytes.take, hnext]
      rw [bytesSpec_cons _ hne, List.drop_drop]
      rw [byte_eq_chunk wsl len l k hlen hbit (by omega)]
      have hcw' : (if 0 < 8 * (k + 1) ∧ toWordOffset (8 * (k + 1)) = 0
          then toWordIndex (8 * k) + 1 else toWordIndex (8 * k)) = toWordIndex (8 * (k + 1)) := by
        have e1 : toWordOffset (8 * (k + 1)) = 8 * (k + 1) % 64 := rfl
        have e2 : toWordIndex (8 * (k + 1)) = 8 * (k + 1) / 64 := rfl
        have e3 : toWordIndex (8 * k) = 8 * k / 64 := rfl
        by_cases hc : 0 < 8 * (k + 1) ∧ toWordOffset (8 * (k + 1)) = 0
        · rw [if_pos hc]
          obtain ⟨hc1, hc2⟩ := hc
          omega
        · rw [if_neg hc]
          have hc2 : ¬ toWordOffset (8 * (k + 1)) = 0 := by
            intro hz
            exact hc ⟨by omega, hz⟩
          omega
      have htail := ih (k + 1) (toWordIndex (8 * k)) (by omega) (by omega) hcw'
      rw [show 8 * (k + 1) = 8 * k + 8 from by omega] at htail
      rw [htail]

theorem byteList_eq_bytesSpec {bv : BitVector} {l : List Bool} (h : WFbits bv l) :
    byteList bv = bytesSpec l := by
  obtain ⟨hlen, hw2, hb2, hbits⟩ := h
  unfold byteList bytes
  by_cases h0 : bv.len = 0
  · rw [if_pos h0, take_none _ _ rfl]
    have hl : l = [] := by
      cases l with
      | nil => rfl
      | cons a as =>
        rw [h0] at hlen
        simp at hlen
    rw [hl, bytesSpec_nil]
  · rw [if_neg h0]
    have hbit' : ∀ i < bv.len, (bv.words.getD (toWordIndex i) 0).testBit (toWordOffset i) =
        l.getD i false := by
      intro i hi
      rw [← getUnchecked_testBit]
      exact hbits i (by omega)
    have hmain := take_bytes_eq bv.words bv.len l hlen hbit' bv.len 0 0 (by omega) (by omega)
      (by
        rw [if_neg]
        · rfl
        · intro hc
          exact absurd hc.1 (by omega))
    simpa using hmain

end BV

namespace Huffman

theorem popMin_eq_none {T : Type} {l : List (UET T)} : popMin l = none ↔ l = [] := by
  cases l with
  | nil => simp [popMin]
  | cons x xs =>
    simp only [popMin]
    constructor
    · intro h
      exfalso
      cases hpm : popMin xs with
      | none =>
        rw [hpm] at h
        simp at h
      | some p =>
        obtain ⟨m, rest⟩ := p
        rw [hpm] at h
        by_cases hc : uetCmp x m = Ordering.lt <;> simp [hc] at h
    · intro h
      exact absurd h (by simp)

theorem popMin_perm {T : Type} : ∀ {l : List (UET T)} {e : UET T} {r : List (UET T)},
    popMin l = some (e, r) → l.Perm (e :: r) := by
  intro l
  induction l with
  | nil => intro e r h; simp [popMin] at h
  | cons x xs ih =>
    intro e r h
    simp only [popMin] at h
    cases hpm : popMin xs with
    | none =>
      rw [hpm] at h
      simp only [Option.some.injEq, Prod.mk.injEq] at h
      obtain ⟨rfl, rfl⟩ := h
      have hxs : xs = [] := popMin_eq_none.mp hpm
      subst hxs
      exact List.Perm.refl _
    | some p =>
      obtain ⟨m, rest⟩ := p
      rw [hpm] at h
      by_cases hcmp : uetCmp x m = Ordering.lt
      · simp [hcmp] at h
        obtain ⟨he, hr⟩ := h
        rw [← he, ← hr]
        have hperm := ih hpm
        exact (hperm.cons x).trans (List.Perm.swap _ _ _)
      · simp [hcmp] at h
        obtain ⟨he, hr⟩ := h
        rw [← he, ← hr]

theorem popMin_min {T : Type} : ∀ {l : List (UET T)} {e : UET T} {r : List (UET T)},
    popMin l = some (e, r) → ∀ x ∈ l, e.2 ≤ x.2 := by
  intro l
  induction l with
  | nil => intro e r h; simp [popMin] at h
  | cons a xs ih =>
    intro e r h x hx
    simp only [popMin] at h
    cases hpm : popMin xs with
    | none =>
      rw [hpm] at h
      simp only [Option.some.injEq, Prod.mk.injEq] at h
      obtain ⟨rfl, rfl⟩ := h
      have hxs : xs = [] := popMin_eq_none.mp hpm
      subst hxs
      rcases List.mem_singleton.mp hx with rfl
      exact le_refl _
    | some p =>
      obtain ⟨m, rest⟩ := p
      rw [hpm] at h
      have hmin := ih hpm
      have hcmp_def : uetCmp a m = compare m.2 a.2 := rfl
      by_cases hcmp : uetCmp a m = Ordering.lt
      · simp [hcmp] at h
        obtain ⟨he, hr⟩ := h
        rw [← he]
        have hc2 : compare m.2 a.2 = Ordering.lt := by
          rw [← hcmp_def]
          exact hcmp
        have hlt : m.2 < a.2 := Nat.compare_eq_lt.mp hc2
        rcases List.mem_cons.mp hx with rfl | hx'
        · omega
        · exact hmin x hx'
      · simp [hcmp] at h
        obtain ⟨he, hr⟩ := h
        rw [← he]
        have hc2 : ¬ compare m.2 a.2 = Ordering.lt := by
          rw [← hcmp_def]
          exact hcmp
        have hle : a.2 ≤ m.2 := by
          have hnlt : ¬ m.2 < a.2 := fun hl => hc2 (Nat.compare_eq_lt.mpr hl)
          omega
        rcases List.mem_cons.mp hx with rfl | hx'
        · exact le_refl _
        · exact le_trans hle (hmin x hx')

theorem buildLoop_succ_none {T : Type} (fuel : Nat) (heap : List (UET T)) (left : UET T)
    (rest : List (UET T)) (hp1 : popMin heap = some (left, rest)) (hp2 : popMin rest = none) :
    buildLoop (fuel + 1) heap = some left.1 := by
  simp only [buildLoop, hp1, hp2]

theorem buildLoop_succ_step {T : Type} (fuel : Nat) (heap : List (UET T)) (left right : UET T)
    (rest rest2 : List (UET T)) (hp1 : popMin heap = some (left, rest))
    (hp2 : popMin rest = some (right, rest2)) :
    buildLoop (fuel + 1) heap =
      buildLoop fuel (rest2 ++ [(EncodingTree.Inner left.1 right.1, left.2 + right.2)]) := by
  simp only [buildLoop, hp1, hp2]

theorem buildLoop_isSome {T : Type} : ∀ (fuel : Nat) (heap : List (UET T)), heap ≠ [] →
    heap.length ≤ fuel → (buildLoop fuel heap).isSome := by
  intro fuel
  induction fuel with
  | zero =>
    intro heap hne hlen
    have hpos : 0 < heap.length := List.length_pos.mpr hne
    omega
  | succ fuel ih =>
    intro heap hne hlen
    cases hp1 : popMin heap with
    | none => exact absurd (popMin_eq_none.mp hp1) hne
    | some p1 =>
      obtain ⟨left, rest⟩ := p1
      cases hp2 : popMin rest with
      | none =>
        rw [buildLoop_succ_none fuel heap left rest hp1 hp2]
        rfl
      | some p2 =>
        obtain ⟨right, rest2⟩ := p2
        rw [buildLoop_succ_step fuel heap left right rest rest2 hp1 hp2]
        have hlen1 : heap.length = rest.length + 1 := by
          have := (popMin_perm hp1).length_eq
          simpa using this
        have hlen2 : rest.length = rest2.length + 1 := by
          have := (popMin_perm hp2).length_eq
          simpa using this
        apply ih
        · simp
        · simp only [List.length_append, List.length_cons, List.length_nil]
          omega

theorem buildLoop_leaves {T : Type} : ∀ (fuel : Nat) (heap : List (UET T)) (root : EncodingTree T),
    buildLoop fuel heap = some root →
    (leaves root : Multiset T) = (heap.map fun e => (leaves e.1 : Multiset T)).sum := by
  intro fuel
  induction fuel with
  | zero => intro heap root h; simp [buildLoop] at h
  | succ fuel ih =>
    intro heap root h
    cases hp1 : popMin heap with
    | none =>
      have hnil := popMin_eq_none.mp hp1
      subst hnil
      simp [buildLoop, popMin] at h
    | some p1 =>
      obtain ⟨left, rest⟩ := p1
      have hperm1 := popMin_perm hp1
      cases hp2 : popMin rest with
      | none =>
        rw [buildLoop_succ_none fuel heap left rest hp1 hp2] at h
        injection h with h
        subst h
        have hrest : rest = [] := popMin_eq_none.mp hp2
        subst hrest
        have hsum : (heap.map fun e => (leaves e.1 : Multiset T)).sum
            = ([left].map fun e => (leaves e.1 : Multiset T)).sum :=
          List.Perm.sum_eq (hperm1.map _)
        rw [hsum]
        simp
      | some p2 =>
        obtain ⟨right, rest2⟩ := p2
        rw [buildLoop_succ_step fuel heap left right rest rest2 hp1 hp2] at h
        have hperm2 := popMin_perm hp2
        have hrec := ih _ _ h
        rw [hrec]
        have hs1 : (heap.map fun e => (leaves e.1 : Multiset T)).sum
            = ((left :: rest).map fun e => (leaves e.1 : Multiset T)).sum :=
          List.Perm.sum_eq (hperm1.map _)
        have hs2 : (rest.map fun e => (leaves e.1 : Multiset T)).sum
            = ((right :: rest2).map fun e => (leaves e.1 : Multiset T)).sum :=
          List.Perm.sum_eq (hperm2.map _)
        rw [hs1, List.map_append, List.sum_append]
        simp only [List.map_cons, List.sum_cons, List.map_nil, List.sum_nil, hs2, leaves]
        rw [show ((leaves left.1 ++ leaves right.1 : List T) : Multiset T)
          = (leaves left.1 : Multiset T) + (leaves right.1 : Multiset T) from rfl]
        abel

end Huffman

namespace Huffman

theorem codes_fst {T : Type} (t : EncodingTree T) : (codes t).map Prod.fst = leaves t := by
  induction t with
  | Leaf c => rfl
  | Inner a b iha ihb =>
    simp only [codes, leaves, List.map_append, List.map_map]
    have h1 : (Prod.fst ∘ fun cw : T × List Bool => (cw.1, false :: cw.2)) = Prod.fst := rfl
    have h2 : (Prod.fst ∘ fun cw : T × List Bool => (cw.1, true :: cw.2)) = Prod.fst := rfl
    rw [h1, h2, iha, ihb]

theorem add_tree_eq {T : Type} (t : EncodingTree T) :
    ∀ (enc : List (T × List Bool)) (pre : List Bool),
      add_tree enc pre t = enc ++ (codes t).map fun cw => (cw.1, pre ++ cw.2) := by
  induction t with
  | Leaf c =>
    intro enc pre
    simp [add_tree, codes]
  | Inner a b iha ihb =>
    intro enc pre
    simp only [add_tree, codes]
    rw [iha, ihb, List.map_append, List.map_map, List.map_map, List.append_assoc]
    have h1 : ((fun cw : T × List Bool => (cw.1, pre ++ cw.2)) ∘
        fun cw : T × List Bool => (cw.1, false :: cw.2)) =
        fun cw : T × List Bool => (cw.1, add_bit pre false ++ cw.2) := by
      funext cw
      simp [add_bit]
    have h2 : ((fun cw : T × List Bool => (cw.1, pre ++ cw.2)) ∘
        fun cw : T × List Bool => (cw.1, true :: cw.2)) =
        fun cw : T × List Bool => (cw.1, add_bit pre true ++ cw.2) := by
      funext cw
      simp [add_bit]
    rw [h1, h2]

theorem add_tree_nil {T : Type} (root : EncodingTree T) : add_tree [] [] root = codes root := by
  rw [add_tree_eq]
  have h1 : (fun cw : T × List Bool => (cw.1, [] ++ cw.2)) = id := by
    funext cw
    simp
  rw [h1, List.map_id, List.nil_append]

theorem lookupEnc_mem {T : Type} [DecidableEq T] :
    ∀ (enc : List (T × List Bool)) (c : T) (w : List Bool),
      lookupEnc enc c = some w → (c, w) ∈ enc := by
  intro enc
  induction enc with
  | nil => intro c w h; simp [lookupEnc] at h
  | cons kv rest ih =>
    intro c w h
    obtain ⟨k, wv⟩ := kv
    simp only [lookupEnc] at h
    by_cases hc : c = k
    · rw [if_pos hc] at h
      injection h with h'
      rw [hc, h']
      exact List.mem_cons_self _ _
    · rw [if_neg hc] at h
      exact List.mem_cons_of_mem _ (ih c w h)

theorem lookupEnc_isSome_iff {T : Type} [DecidableEq T] :
    ∀ (enc : List (T × List Bool)) (c : T),
      (lookupEnc enc c).isSome ↔ c ∈ enc.map Prod.fst := by
  intro enc
  induction enc with
  | nil => intro c; simp [lookupEnc]
  | cons kv rest ih =>
    intro c
    obtain ⟨k, wv⟩ := kv
    simp only [lookupEnc, List.map_cons, List.mem_cons]
    by_cases hc : c = k
    · rw [if_pos hc]
      simp [hc]
    · rw [if_neg hc]
      simp [hc, ih]

theorem decodeTree_codes {T : Type} :
    ∀ (t : EncodingTree T) (c : T) (w rest : List Bool),
      (c, w) ∈ codes t → decodeTree t (w ++ rest) = some (c, rest) := by
  intro t
  induction t with
  | Leaf c' =>
    intro c w rest h
    simp [codes] at h
    obtain ⟨rfl, rfl⟩ := h
    rfl
  | Inner a b iha ihb =>
    intro c w rest h
    simp only [codes, List.mem_append, List.mem_map] at h
    rcases h with ⟨cw, hcw, heq⟩ | ⟨cw, hcw, heq⟩
    · obtain ⟨cw1, cw2⟩ := cw
      simp only [Prod.mk.injEq] at heq
      obtain ⟨rfl, rfl⟩ := heq
      have hrec := iha cw1 cw2 rest hcw
      simpa [decodeTree] using hrec
    · obtain ⟨cw1, cw2⟩ := cw
      simp only [Prod.mk.injEq] at heq
      obtain ⟨rfl, rfl⟩ := heq
      have hrec := ihb cw1 cw2 rest hcw
      simpa [decodeTree] using hrec

theorem codes_prefix_free {T : Type} :
    ∀ (t : EncodingTree T) (c1 c2 : T) (w1 w2 : List Bool),
      (c1, w1) ∈ codes t → (c2, w2) ∈ codes t → w1 <+: w2 → c1 = c2 ∧ w1 = w2 := by
  intro t
  induction t with
  | Leaf c =>
    intro c1 c2 w1 w2 h1 h2 _
    simp [codes] at h1 h2
    obtain ⟨rfl, rfl⟩ := h1
    obtain ⟨rfl, rfl⟩ := h2
    exact ⟨rfl, rfl⟩
  | Inner a b iha ihb =>
    intro c1 c2 w1 w2 h1 h2 hp
    simp only [codes, List.mem_append, List.mem_map] at h1 h2
    rcases h1 with ⟨cw, hcw, heq⟩ | ⟨cw, hcw, heq⟩
    · obtain ⟨d1, v1⟩ := cw
      simp only [Prod.mk.injEq] at heq
      obtain ⟨rfl, rfl⟩ := heq
      rcases h2 with ⟨cw', hcw', heq'⟩ | ⟨cw', hcw', heq'⟩
      · obtain ⟨d2, v2⟩ := cw'
        simp only [Prod.mk.injEq] at heq'
        obtain ⟨rfl, rfl⟩ := heq'
        rw [List.cons_prefix_cons] at hp
        have hrec := iha d1 d2 v1 v2 hcw hcw' hp.2
        exact ⟨hrec.1, by rw [hrec.2]⟩
      · obtain ⟨d2, v2⟩ := cw'
        simp only [Prod.mk.injEq] at heq'
        obtain ⟨rfl, rfl⟩ := heq'
        rw [List.cons_prefix_cons] at hp
        exact absurd hp.1 (by simp)
    · obtain ⟨d1, v1⟩ := cw
      simp only [Prod.mk.injEq] at heq
      obtain ⟨rfl, rfl⟩ := heq
      rcases h2 with ⟨cw', hcw', heq'⟩ | ⟨cw', hcw', heq'⟩
      · obtain ⟨d2, v2⟩ := cw'
        simp only [Prod.mk.injEq] at heq'
        obtain ⟨rfl, rfl⟩ := heq'
        rw [List.cons_prefix_cons] at hp
        exact absurd hp.1 (by simp)
      · obtain ⟨d2, v2⟩ := cw'
        simp only [Prod.mk.injEq] at heq'
        obtain ⟨rfl, rfl⟩ := heq'
        rw [List.cons_prefix_cons] at hp
        have hrec := ihb d1 d2 v1 v2 hcw hcw' hp.2
        exact ⟨hrec.1, by rw [hrec.2]⟩

end Huffman

namespace Huffman

theorem encodeGo_append {T : Type} [DecidableEq T] (e : HuffmanEncoding T) :
    ∀ (syms : List T) (acc : List Bool),
      encodeGo e acc syms = (encodeGo e [] syms).map fun bs => acc ++ bs := by
  intro syms
  induction syms with
  | nil => intro acc; simp [encodeGo]
  | cons c cs ih =>
    intro acc
    simp only [encodeGo]
    cases hl : lookupEnc e.encodings c with
    | none => simp
    | some w =>
      show encodeGo e (acc ++ w) cs = Option.map (fun bs => acc ++ bs) (encodeGo e ([] ++ w) cs)
      rw [ih (acc ++ w), ih ([] ++ w)]
      simp only [Option.map_map]
      rw [show ((fun bs : List Bool => acc ++ bs) ∘ fun bs : List Bool => [] ++ w ++ bs)
        = fun bs : List Bool => acc ++ w ++ bs from by funext bs; simp]

theorem encode_cons {T : Type} [DecidableEq T] (e : HuffmanEncoding T) (c : T) (cs : List T) :
    encode e (c :: cs) =
      match lookupEnc e.encodings c with
      | none => none
      | some w => (encode e cs).map fun bs => w ++ bs := by
  unfold encode
  simp only [encodeGo]
  cases hl : lookupEnc e.encodings c with
  | none => rfl
  | some w =>
    show encodeGo e ([] ++ w) cs = Option.map (fun bs => w ++ bs) (encodeGo e [] cs)
    rw [encodeGo_append e cs ([] ++ w)]
    simp

theorem encode_isSome_iff {T : Type} [DecidableEq T] (e : HuffmanEncoding T) :
    ∀ syms : List T,
      (encode e syms).isSome ↔ ∀ c ∈ syms, (lookupEnc e.encodings c).isSome := by
  intro syms
  induction syms with
  | nil => simp [encode, encodeGo]
  | cons c cs ih =>
    rw [encode_cons]
    cases hl : lookupEnc e.encodings c with
    | none => simp [hl]
    | some w =>
      show ((encode e cs).map fun bs => w ++ bs).isSome ↔
        ∀ x ∈ c :: cs, (lookupEnc e.encodings x).isSome
      constructor
      · intro h x hx
        rcases List.mem_cons.mp hx with rfl | hx'
        · simp [hl]
        · refine ih.mp ?_ x hx'
          cases he : encode e cs with
          | none => rw [he] at h; simp at h
          | some bs => simp
      · intro h
        have h2 : (encode e cs).isSome := ih.mpr fun x hx => h x (List.mem_cons_of_mem _ hx)
        cases he : encode e cs with
        | none => rw [he] at h2; simp at h2
        | some bs => simp

theorem encode_eq_flatten {T : Type} [DecidableEq T] (e : HuffmanEncoding T) :
    ∀ syms : List T, (∀ c ∈ syms, (lookupEnc e.encodings c).isSome) →
      encode e syms =
        some ((syms.map fun c => (lookupEnc e.encodings c).getD []).flatten) := by
  intro syms
  induction syms with
  | nil => intro _; rfl
  | cons c cs ih =>
    intro h
    rw [encode_cons]
    cases hl : lookupEnc e.encodings c with
    | none =>
      have hc := h c (List.mem_cons_self _ _)
      rw [hl] at hc
      simp at hc
    | some w =>
      rw [ih fun x hx => h x (List.mem_cons_of_mem _ hx)]
      simp [hl]

theorem decodeLoop_succ_none {T : Type} (t : EncodingTree T) (bits : List Bool) (n : Nat)
    (hd : decodeTree t bits = none) :
    decodeLoop t bits (n + 1) = .error .notLongEnough := by
  simp only [decodeLoop, hd]

theorem decodeLoop_succ_some {T : Type} (t : EncodingTree T) (bits : List Bool) (n : Nat)
    (c : T) (rest : List Bool) (hd : decodeTree t bits = some (c, rest)) :
    decodeLoop t bits (n + 1) =
      match decodeLoop t rest n with
      | .ok cs => .ok (c :: cs)
      | .error err => .error err := by
  simp only [decodeLoop, hd]

theorem decode_zero {T : Type} (e : HuffmanEncoding T) (bits : List Bool) :
    decode e bits 0 = .ok [] := rfl

theorem decode_pos_none {T : Type} (e : HuffmanEncoding T) (bits : List Bool) (n : Nat)
    (hn : n ≠ 0) (ht : e.decode_tree = none) : decode e bits n = .error .noTree := by
  simp only [decode, if_neg hn, ht]

theorem decode_pos_some {T : Type} (e : HuffmanEncoding T) (bits : List Bool) (n : Nat)
    (t : EncodingTree T) (hn : n ≠ 0) (ht : e.decode_tree = some t) :
    decode e bits n = decodeLoop t bits n := by
  simp only [decode, if_neg hn, ht]

theorem decodeLoop_ok_or_truncated {T : Type} (t : EncodingTree T) :
    ∀ (n : Nat) (bits : List Bool),
      (∃ res, decodeLoop t bits n = .ok res ∧ res.length = n) ∨
        decodeLoop t bits n = .error .notLongEnough := by
  intro n
  induction n with
  | zero => intro bits; exact Or.inl ⟨[], rfl, rfl⟩
  | succ n ih =>
    intro bits
    cases hd : decodeTree t bits with
    | none => exact Or.inr (decodeLoop_succ_none t bits n hd)
    | some p =>
      obtain ⟨c, rest⟩ := p
      rw [decodeLoop_succ_some t bits n c rest hd]
      rcases ih rest with ⟨res, hres, hlen⟩ | herr
      · rw [hres]
        exact Or.inl ⟨c :: res, rfl, by simp [hlen]⟩
      · rw [herr]
        exact Or.inr rfl

theorem decodeLoop_encode {T : Type} [DecidableEq T] (root : EncodingTree T)
    (e : HuffmanEncoding T)
    (hE : ∀ c w, lookupEnc e.encodings c = some w → (c, w) ∈ codes root) :
    ∀ (syms : List T) (bits : List Bool), encode e syms = some bits →
      decodeLoop root bits syms.length = .ok syms := by
  intro syms
  induction syms with
  | nil =>
    intro bits h
    simp [encode, encodeGo] at h
    subst h
    rfl
  | cons c cs ih =>
    intro bits h
    rw [encode_cons] at h
    cases hl : lookupEnc e.encodings c with
    | none => rw [hl] at h; simp at h
    | some w =>
      rw [hl] at h
      simp only [Option.map_eq_some'] at h
      obtain ⟨rest, hrest, hbits⟩ := h
      rw [← hbits]
      have hmem := hE c w hl
      rw [List.length_cons,
        decodeLoop_succ_some root (w ++ rest) cs.length c rest (decodeTree_codes root c w rest hmem),
        ih rest hrest]

theorem fromFrequencies_built {T : Type} {freqs : List (T × Nat)} (hne : freqs ≠ []) :
    ∃ root : EncodingTree T,
      buildLoop (freqs.map fun cf => ((EncodingTree.Leaf cf.1 : EncodingTree T), cf.2)).length
        (freqs.map fun cf => ((EncodingTree.Leaf cf.1 : EncodingTree T), cf.2)) = some root ∧
      fromFrequencies freqs = ⟨codes root, some root⟩ := by
  have hne' : (freqs.map fun cf => ((EncodingTree.Leaf cf.1 : EncodingTree T), cf.2)) ≠ [] := by
    simp [hne]
  have hsome := buildLoop_isSome _ _ hne' (le_refl _)
  rw [Option.isSome_iff_exists] at hsome
  obtain ⟨root, hroot⟩ := hsome
  refine ⟨root, hroot, ?_⟩
  simp only [fromFrequencies]
  rw [if_neg (by simp [hne])]
  simp only [hroot]
  rw [add_tree_nil]

theorem leaf_heap_sum {T : Type} (freqs : List (T × Nat)) :
    ((freqs.map fun cf => ((EncodingTree.Leaf cf.1 : EncodingTree T), cf.2)).map
      fun e => (leaves e.1 : Multiset T)).sum = (freqs.map Prod.fst : Multiset T) := by
  induction freqs with
  | nil => simp
  | cons cf rest ih =>
    simp only [List.map_cons, List.sum_cons, ih, leaves]
    rfl

theorem built_mem_keys {T : Type} {freqs : List (T × Nat)} {root : EncodingTree T}
    (hroot : buildLoop (freqs.map fun cf => ((EncodingTree.Leaf cf.1 : EncodingTree T), cf.2)).length
      (freqs.map fun cf => ((EncodingTree.Leaf cf.1 : EncodingTree T), cf.2)) = some root) (c : T) :
    c ∈ leaves root ↔ c ∈ freqs.map Prod.fst := by
  have hmul := buildLoop_leaves _ _ _ hroot
  rw [leaf_heap_sum] at hmul
  constructor
  · intro h
    have h2 : c ∈ (leaves root : Multiset T) := Multiset.mem_coe.mpr h
    rw [hmul] at h2
    exact Multiset.mem_coe.mp h2
  · intro h
    have h2 : c ∈ (freqs.map Prod.fst : Multiset T) := Multiset.mem_coe.mpr h
    rw [← hmul] at h2
    exact Multiset.mem_coe.mp h2

end Huffman

namespace Huffman

theorem decode_encode {T : Type} [DecidableEq T] {freqs : List (T × Nat)} (hne : freqs ≠ [])
    (syms : List T) (bits : List Bool)
    (henc : encode (fromFrequencies freqs) syms = some bits) :
    decode (fromFrequencies freqs) bits syms.length = .ok syms := by
  obtain ⟨root, hroot, hff⟩ := fromFrequencies_built hne
  have hE : ∀ (c : T) (w : List Bool),
      lookupEnc (fromFrequencies freqs).encodings c = some w → (c, w) ∈ codes root := by
    intro c w hl
    rw [hff] at hl
    exact lookupEnc_mem _ c w hl
  by_cases h0 : syms.length = 0
  · have hsyms : syms = [] := List.length_eq_zero.mp h0
    subst hsyms
    simp [encode, encodeGo] at henc
    subst henc
    rfl
  · rw [decode_pos_some _ _ _ root h0 (by rw [hff])]
    exact decodeLoop_encode root _ hE syms bits henc

theorem built_lookup_isSome {T : Type} [DecidableEq T] {freqs : List (T × Nat)}
    (hne : freqs ≠ []) (c : T) :
    (lookupEnc (fromFrequencies freqs).encodings c).isSome ↔ c ∈ freqs.map Prod.fst := by
  obtain ⟨root, hroot, hff⟩ := fromFrequencies_built hne
  rw [hff]
  show (lookupEnc (codes root) c).isSome ↔ _
  rw [lookupEnc_isSome_iff, codes_fst]
  exact built_mem_keys hroot c

theorem encode_append_go {T : Type} [DecidableEq T] (e : HuffmanEncoding T) :
    ∀ (xs ys : List T) (wa wb : List Bool), encode e xs = some wa → encode e ys = some wb →
      encode e (xs ++ ys) = some (wa ++ wb) := by
  intro xs
  induction xs with
  | nil =>
    intro ys wa wb ha hb
    simp [encode, encodeGo] at ha
    subst ha
    simpa using hb
  | cons c cs ih =>
    intro ys wa wb ha hb
    rw [encode_cons] at ha
    rw [List.cons_append, encode_cons]
    cases hl : lookupEnc e.encodings c with
    | none => rw [hl] at ha; simp at ha
    | some w =>
      rw [hl] at ha
      simp only [Option.map_eq_some'] at ha
      obtain ⟨ra, hra, hwa⟩ := ha
      show (encode e (cs ++ ys)).map (fun bs => w ++ bs) = some (wa ++ wb)
      rw [ih ys ra wb hra hb]
      simp [← hwa, List.append_assoc]

theorem encode_length {T : Type} [DecidableEq T] (e : HuffmanEncoding T) :
    ∀ (xs : List T) (wa : List Bool), encode e xs = some wa →
      wa.length = (xs.map fun c => ((lookupEnc e.encodings c).getD []).length).sum := by
  intro xs
  induction xs with
  | nil =>
    intro wa ha
    simp [encode, encodeGo] at ha
    subst ha
    rfl
  | cons c cs ih =>
    intro wa ha
    rw [encode_cons] at ha
    cases hl : lookupEnc e.encodings c with
    | none => rw [hl] at ha; simp at ha
    | some w =>
      rw [hl] at ha
      simp only [Option.map_eq_some'] at ha
      obtain ⟨ra, hra, hwa⟩ := ha
      rw [← hwa]
      simp [ih ra hra, hl]

end Huffman

/-- C1: for every codec built from a non-empty frequency table and every finite
sequence of symbols each of which is a key of that table, encode succeeds, and
decoding the bit container produced by encode with expected symbol count equal
to the sequence's length yields exactly the original sequence. -/
theorem huffman_round_trip {T : Type} [DecidableEq T] (freqs : List (T × Nat))
    (hne : freqs ≠ []) (hnd : (freqs.map Prod.fst).Nodup) (syms : List T)
    (hsyms : ∀ c ∈ syms, c ∈ freqs.map Prod.fst) :
    ∃ bits, Huffman.encode (Huffman.fromFrequencies freqs) syms = some bits ∧
      Huffman.decode (Huffman.fromFrequencies freqs) bits syms.length = .ok syms := by
  have hsome : (Huffman.encode (Huffman.fromFrequencies freqs) syms).isSome := by
    rw [Huffman.encode_isSome_iff]
    intro c hc
    rw [Huffman.built_lookup_isSome hne]
    exact hsyms c hc
  obtain ⟨bits, hbits⟩ := Option.isSome_iff_exists.mp hsome
  exact ⟨bits, hbits, Huffman.decode_encode hne syms bits hbits⟩

/-- Witness for C1 at a concrete two-symbol table and symbol sequence. -/
theorem huffman_round_trip_witness :
    ∃ bits, Huffman.encode (Huffman.fromFrequencies [((0 : Nat), 2), (1, 1)]) [0, 1, 0] =
        some bits ∧
      Huffman.decode (Huffman.fromFrequencies [((0 : Nat), 2), (1, 1)]) bits 3 =
        .ok [0, 1, 0] :=
  huffman_round_trip [((0 : Nat), 2), (1, 1)] (by decide) (by decide) [0, 1, 0] (by decide)

/-- C2: the byte stream of every well-formed bit container packs each group of
8 consecutive bits into one byte least-significant-bit-first, with the final
partial byte holding the remaining bits in its low-order positions and all
unused high-order bits zero; every container built by pushing a bit sequence
is well-formed; in particular the bits 1,0,1 emit the single byte 5 = 0b101
and the 9 alternating bits emit the bytes 85 = 0b01010101 and 1. -/
theorem bit_vector_byte_stream_packing :
    (∀ (bv : BV.BitVector) (l : List Bool), BV.WFbits bv l → BV.byteList bv = BV.bytesSpec l) ∧
    (∀ l : List Bool, BV.WFbits (BV.ofList l) l) ∧
    BV.byteList (BV.ofList [true, false, true]) = [5] ∧
    BV.byteList (BV.ofList [true, false, true, false, true, false, true, false, true]) =
      [85, 1] :=
  ⟨fun _ _ h => BV.byteList_eq_bytesSpec h, BV.wf_ofList, by decide, by decide⟩

/-- Witness for C2 applying the packing theorem to a concrete container. -/
theorem bit_vector_byte_stream_packing_witness :
    BV.byteList (BV.ofList [true, true, false]) = BV.bytesSpec [true, true, false] :=
  bit_vector_byte_stream_packing.1 (BV.ofList [true, true, false]) [true, true, false]
    (by decide)

/-- C3: building a codec from a nonempty frequency table starts the merge loop
from one leaf per symbol weighted by its frequency; at every step the first
pop removes a globally minimum-weight pending entry and the second pop removes
a globally minimum-weight entry of the remainder; when the second pop finds
the heap empty the loop stops with the single remaining entry's tree as root,
and otherwise the two entries are combined into an Inner node whose weight is
the sum of the two and pushed back. -/
theorem huffman_build_greedy {T : Type} :
    (∀ freqs : List (T × Nat), freqs ≠ [] →
      (Huffman.fromFrequencies freqs).decode_tree =
        Huffman.buildLoop
          (freqs.map fun cf =>
            ((Huffman.EncodingTree.Leaf cf.1 : Huffman.EncodingTree T), cf.2)).length
          (freqs.map fun cf =>
            ((Huffman.EncodingTree.Leaf cf.1 : Huffman.EncodingTree T), cf.2))) ∧
    (∀ (fuel : Nat) (heap : List (Huffman.UET T)) (left : Huffman.UET T)
        (r : List (Huffman.UET T)), Huffman.popMin heap = some (left, r) →
      (∀ x ∈ heap, left.2 ≤ x.2) ∧ heap.Perm (left :: r) ∧
      (Huffman.popMin r = none → r = [] ∧ Huffman.buildLoop (fuel + 1) heap = some left.1) ∧
      (∀ (right : Huffman.UET T) (r2 : List (Huffman.UET T)),
        Huffman.popMin r = some (right, r2) →
        (∀ x ∈ r, right.2 ≤ x.2) ∧ r.Perm (right :: r2) ∧
        Huffman.buildLoop (fuel + 1) heap =
          Huffman.buildLoop fuel
            (r2 ++ [(Huffman.EncodingTree.Inner left.1 right.1, left.2 + right.2)]))) := by
  constructor
  · intro freqs hne
    obtain ⟨root, hroot, hff⟩ := Huffman.fromFrequencies_built hne
    rw [hff, hroot]
  · intro fuel heap left r hp1
    refine ⟨Huffman.popMin_min hp1, Huffman.popMin_perm hp1, ?_, ?_⟩
    · intro hp2
      exact ⟨Huffman.popMin_eq_none.mp hp2,
        Huffman.buildLoop_succ_none fuel heap left r hp1 hp2⟩
    · intro right r2 hp2
      exact ⟨Huffman.popMin_min hp2, Huffman.popMin_perm hp2,
        Huffman.buildLoop_succ_step fuel heap left right r r2 hp1 hp2⟩

/-- Witness for C3 applying the loop characterization to a concrete table. -/
theorem huffman_build_greedy_witness :
    (Huffman.fromFrequencies [((0 : Nat), 5), (1, 2)]).decode_tree =
      Huffman.buildLoop
        ([((0 : Nat), 5), (1, 2)].map fun cf =>
          ((Huffman.EncodingTree.Leaf cf.1 : Huffman.EncodingTree Nat), cf.2)).length
        ([((0 : Nat), 5), (1, 2)].map fun cf =>
          ((Huffman.EncodingTree.Leaf cf.1 : Huffman.EncodingTree Nat), cf.2)) :=
  huffman_build_greedy.1 [((0 : Nat), 5), (1, 2)] (by decide)

/-- C4: in every codec built from a frequency table, the codeword assigned to
one symbol is never a proper or improper prefix of the codeword assigned to a
different symbol. -/
theorem huffman_codeword_prefix_free {T : Type} [DecidableEq T] (freqs : List (T × Nat))
    (a b : T) (wa wb : List Bool) (hab : a ≠ b)
    (ha : Huffman.lookupEnc (Huffman.fromFrequencies freqs).encodings a = some wa)
    (hb : Huffman.lookupEnc (Huffman.fromFrequencies freqs).encodings b = some wb) :
    ¬ wa <+: wb := by
  intro hp
  by_cases hne : freqs = []
  · subst hne
    simp [Huffman.fromFrequencies, Huffman.empty, Huffman.lookupEnc] at ha
  · obtain ⟨root, hroot, hff⟩ := Huffman.fromFrequencies_built hne
    rw [hff] at ha hb
    have hma := Huffman.lookupEnc_mem _ _ _ ha
    have hmb := Huffman.lookupEnc_mem _ _ _ hb
    exact hab (Huffman.codes_prefix_free root a b wa wb hma hmb hp).1

/-- Witness for C4 on a concrete two-symbol codec. -/
theorem huffman_codeword_prefix_free_witness : ¬ ([true] : List Bool) <+: [false] :=
  huffman_codeword_prefix_free [((0 : Nat), 2), (1, 1)] 0 1 [true] [false]
    (by decide) (by decide) (by decide)

/-- C5 counterexample: the interleaving push 1, pop, push 2, pop pops the
values 1 then 2, so the sequence of all popped values across the whole
interleaving is not non-increasing. -/
theorem max_heap_pops_monotone_counterexample :
    ¬ List.Chain' (· ≥ ·)
      (MaxHeap.runOps [MaxHeap.HeapOp.pushOp 1, MaxHeap.HeapOp.popOp,
        MaxHeap.HeapOp.pushOp 2, MaxHeap.HeapOp.popOp]).2 := by
  intro h
  have hpops : (MaxHeap.runOps [MaxHeap.HeapOp.pushOp 1, MaxHeap.HeapOp.popOp,
      MaxHeap.HeapOp.pushOp 2, MaxHeap.HeapOp.popOp]).2 = [1, 2] := rfl
  rw [hpops, List.chain'_cons] at h
  exact absurd h.1 (by omega)

/-- C5 (amended): after any interleaving of push and pop operations starting
from the empty heap, the values returned by any run of consecutive pops (with
no intervening push) form a non-increasing sequence. -/
theorem max_heap_consecutive_pops_non_increasing (ops : List MaxHeap.HeapOp) (k : Nat) :
    List.Chain' (· ≥ ·) (MaxHeap.popRun (MaxHeap.runOps ops).1 k) :=
  MaxHeap.chain_popRun k _ (MaxHeap.heapP_runOps ops)

/-- C6: the heap-order property (every entry at least both of its children at
indices 2i+1 and 2i+2) holds for the empty heap and is preserved by every
push and by every pop via Iterator::next. -/
theorem max_heap_order_invariant :
    MaxHeap.IsHeap [] ∧
    (∀ (l : List Int) (v : Int), MaxHeap.IsHeap l → MaxHeap.IsHeap (MaxHeap.push l v)) ∧
    (∀ (l l' : List Int) (v : Int), MaxHeap.IsHeap l → MaxHeap.next l = some (v, l') →
      MaxHeap.IsHeap l') := by
  refine ⟨by decide, ?_, ?_⟩
  · intro l v h
    rw [MaxHeap.isHeap_iff_heapP] at h ⊢
    exact MaxHeap.push_heapP l v h
  · intro l l' v h hn
    rw [MaxHeap.isHeap_iff_heapP] at h ⊢
    exact MaxHeap.next_heapP h hn

/-- Witness for C6: pushing onto a concrete heap preserves the heap order. -/
theorem max_heap_order_invariant_witness : MaxHeap.IsHeap (MaxHeap.push [5, 3, 4] 6) :=
  max_heap_order_invariant.2.1 [5, 3, 4] 6 (by decide)

/-- C7: a codec built from a one-symbol frequency table assigns that symbol
the empty codeword; encoding any number of copies of the symbol yields the
empty bit container, and decoding the empty container with expected count n
yields n copies of the symbol. -/
theorem huffman_single_symbol {T : Type} [DecidableEq T] (c : T) (f : Nat) (n : Nat) :
    Huffman.lookupEnc (Huffman.fromFrequencies [(c, f)]).encodings c = some [] ∧
    Huffman.encode (Huffman.fromFrequencies [(c, f)]) (List.replicate n c) = some [] ∧
    Huffman.decode (Huffman.fromFrequencies [(c, f)]) [] n = .ok (List.replicate n c) := by
  have hroot : Huffman.fromFrequencies [(c, f)] =
      ⟨[(c, [])], some (Huffman.EncodingTree.Leaf c)⟩ := rfl
  have henc : ∀ m : Nat,
      Huffman.encode (Huffman.fromFrequencies [(c, f)]) (List.replicate m c) = some [] := by
    intro m
    induction m with
    | zero => rfl
    | succ m ih =>
      rw [List.replicate_succ, Huffman.encode_cons]
      rw [show Huffman.lookupEnc (Huffman.fromFrequencies [(c, f)]).encodings c = some []
        from by rw [hroot]; simp [Huffman.lookupEnc]]
      rw [ih]
      rfl
  have hdec : ∀ m : Nat,
      Huffman.decodeLoop (Huffman.EncodingTree.Leaf c) [] m = .ok (List.replicate m c) := by
    intro m
    induction m with
    | zero => rfl
    | succ m ih =>
      rw [Huffman.decodeLoop_succ_some (Huffman.EncodingTree.Leaf c) [] m c [] rfl, ih,
        List.replicate_succ]
  refine ⟨?_, henc n, ?_⟩
  · rw [hroot]
    simp [Huffman.lookupEnc]
  · cases n with
    | zero => rfl
    | succ m =>
      rw [Huffman.decode_pos_some _ _ _ (Huffman.EncodingTree.Leaf c) (by omega)
        (by rw [hroot])]
      exact hdec (m + 1)

/-- C8: decode with expected count 0 returns the empty sequence for every
codec without consulting the tree; decode with a nonzero count on a codec
built from an empty frequency table fails with noTree; and on any codec with
a tree, decode either succeeds with exactly the expected number of symbols or
fails with notLongEnough, never returning a partial result. -/
theorem huffman_decode_failures {T : Type} :
    (∀ (e : Huffman.HuffmanEncoding T) (bits : List Bool), Huffman.decode e bits 0 = .ok []) ∧
    (∀ (bits : List Bool) (n : Nat), n ≠ 0 →
      Huffman.decode (Huffman.fromFrequencies ([] : List (T × Nat))) bits n =
        .error Huffman.DecodeError.noTree) ∧
    (∀ (e : Huffman.HuffmanEncoding T) (t : Huffman.EncodingTree T) (bits : List Bool)
        (n : Nat), e.decode_tree = some t →
      (∃ res, Huffman.decode e bits n = .ok res ∧ res.length = n) ∨
        Huffman.decode e bits n = .error Huffman.DecodeError.notLongEnough) := by
  refine ⟨fun e bits => rfl, ?_, ?_⟩
  · intro bits n hn
    exact Huffman.decode_pos_none _ _ _ hn rfl
  · intro e t bits n ht
    by_cases hn : n = 0
    · subst hn
      exact Or.inl ⟨[], rfl, rfl⟩
    · rw [Huffman.decode_pos_some _ _ _ t hn ht]
      exact Huffman.decodeLoop_ok_or_truncated t n bits

/-- Witness for C8: decoding one symbol against the empty-table codec fails
with the noTree error. -/
theorem huffman_decode_failures_witness :
    Huffman.decode (Huffman.fromFrequencies ([] : List (Nat × Nat))) [true] 2 =
      .error Huffman.DecodeError.noTree :=
  huffman_decode_failures.2.1 [true] 2 (by decide)

/-- C9: encode fails (the unknown-symbol panic, modelled as none) exactly when
some input symbol is not a key of the frequency table; when every symbol is a
key, encode succeeds and the result is the concatenation of each symbol's
codeword bits in input order. -/
theorem huffman_encode_unknown_symbol {T : Type} [DecidableEq T] (freqs : List (T × Nat))
    (syms : List T) :
    ((Huffman.encode (Huffman.fromFrequencies freqs) syms).isSome ↔
      ∀ c ∈ syms, c ∈ freqs.map Prod.fst) ∧
    ((∀ c ∈ syms, c ∈ freqs.map Prod.fst) →
      Huffman.encode (Huffman.fromFrequencies freqs) syms =
        some ((syms.map fun c =>
          (Huffman.lookupEnc (Huffman.fromFrequencies freqs).encodings c).getD []).flatten)) := by
  by_cases hne : freqs = []
  · subst hne
    have hlk : ∀ c : T,
        Huffman.lookupEnc (Huffman.fromFrequencies ([] : List (T × Nat))).encodings c = none :=
      fun c => rfl
    constructor
    · rw [Huffman.encode_isSome_iff]
      simp [hlk]
    · intro h
      cases syms with
      | nil => rfl
      | cons c cs => exact absurd (h c (List.mem_cons_self _ _)) (by simp)
  · constructor
    · rw [Huffman.encode_isSome_iff]
      constructor
      · intro h c hc
        rw [← Huffman.built_lookup_isSome hne]
        exact h c hc
      · intro h c hc
        rw [Huffman.built_lookup_isSome hne]
        exact h c hc
    · intro h
      apply Huffman.encode_eq_flatten
      intro c hc
      rw [Huffman.built_lookup_isSome hne]
      exact h c hc

/-- Witness for C9: encoding two known symbols yields the concatenated
codewords. -/
theorem huffman_encode_unknown_symbol_witness :
    Huffman.encode (Huffman.fromFrequencies [((0 : Nat), 2), (1, 1)]) [0, 1] =
      some (([0, 1].map fun c =>
        (Huffman.lookupEnc
          (Huffman.fromFrequencies [((0 : Nat), 2), (1, 1)]).encodings c).getD []).flatten) :=
  (huffman_encode_unknown_symbol [((0 : Nat), 2), (1, 1)] [0, 1]).2 (by decide)

/-- C10: for every built codec, encoding a concatenation of two encodable
sequences yields the concatenation of their encodings, and the length of an
encoding is the sum of the lengths of the individual symbols' codewords. -/
theorem huffman_encode_append {T : Type} [DecidableEq T] (freqs : List (T × Nat))
    (xs ys : List T) (wa wb : List Bool)
    (ha : Huffman.encode (Huffman.fromFrequencies freqs) xs = some wa)
    (hb : Huffman.encode (Huffman.fromFrequencies freqs) ys = some wb) :
    Huffman.encode (Huffman.fromFrequencies freqs) (xs ++ ys) = some (wa ++ wb) ∧
    wa.length = (xs.map fun c =>
      ((Huffman.lookupEnc
        (Huffman.fromFrequencies freqs).encodings c).getD []).length).sum :=
  ⟨Huffman.encode_append_go _ xs ys wa wb ha hb, Huffman.encode_length _ xs wa ha⟩

/-- Witness for C10 on a concrete codec and sequences. -/
theorem huffman_encode_append_witness :
    Huffman.encode (Huffman.fromFrequencies [((0 : Nat), 2), (1, 1)]) ([0] ++ [1]) =
      some ([true] ++ [false]) ∧
    ([true] : List Bool).length = ([0].map fun c =>
      ((Huffman.lookupEnc
        (Huffman.fromFrequencies [((0 : Nat), 2), (1, 1)]).encodings c).getD []).length).sum :=
  huffman_encode_append [((0 : Nat), 2), (1, 1)] [0] [1] [true] [false] (by decide) (by decide)
